import Mathlib

/-!
Shallow embedding of `fumen-rs` (`src/lib.rs`): a bidirectional codec between
an in-memory sequence of Tetris board states and the "fumen" text format.

Modelling conventions:
* Rust `u32`/`usize` values are modelled as `Nat`.  Rust integer subtraction
  panics on underflow (debug) — places where the source can underflow are
  modelled either with an explicit `.crash` result (in the decoder, which runs
  on untrusted input) or with `Nat` truncated subtraction guarded by validity
  hypotheses (in the encoder, where the source treats out-of-range pieces as a
  caller precondition violation).
* Rust `String` is a sequence of Unicode scalar values: modelled as
  `List Char`.  `Vec<u8>` output is `List Nat` (byte values).
* Fixed-size arrays `[[CellColor; 10]; 23]` are `List (List CellColor)` with
  shape side conditions (`Page.wf`).
* Rust panics that the decoder can hit on malformed input are modelled by the
  `Res.crash` outcome; clean `Option::None` failures by `Res.fail`.
-/

/-- Outcome of running a fallible Rust function: `ok` is `Some`,
`fail` is `None`, `crash` is a Rust panic. -/
inductive Res (α : Type) where
  | ok (a : α)
  | fail
  | crash
deriving DecidableEq, Repr

/-- `enum CellColor` with its explicit discriminants. -/
inductive CellColor where
  | Empty | I | L | O | Z | T | J | S | Grey
deriving DecidableEq, Repr

/-- The `as usize` value of a `CellColor`. -/
def CellColor.num : CellColor → Nat
  | .Empty => 0
  | .I => 1
  | .L => 2
  | .O => 3
  | .Z => 4
  | .T => 5
  | .J => 6
  | .S => 7
  | .Grey => 8

/-- `enum PieceType` with its explicit discriminants. -/
inductive PieceType where
  | I | L | O | Z | T | J | S
deriving DecidableEq, Repr

/-- The `as u32` value of a `PieceType`. -/
def PieceType.num : PieceType → Nat
  | .I => 1
  | .L => 2
  | .O => 3
  | .Z => 4
  | .T => 5
  | .J => 6
  | .S => 7

/-- `enum RotationState` with its explicit discriminants. -/
inductive RotationState where
  | South | East | North | West
deriving DecidableEq, Repr

/-- The `as u32` value of a `RotationState`. -/
def RotationState.num : RotationState → Nat
  | .South => 0
  | .East => 1
  | .North => 2
  | .West => 3

/-- `struct Piece` (coordinates are `u32`, y-up, SRS true rotation centers). -/
structure Piece where
  kind : PieceType
  rotation : RotationState
  x : Nat
  y : Nat
deriving DecidableEq, Repr

/-- `struct Page`.  `field` is y-up: row 0 is the bottom playfield row;
23 rows of 10 cells (shape recorded by `Page.wf`). -/
structure Page where
  piece : Option Piece
  field : List (List CellColor)
  garbage_row : List CellColor
  rise : Bool
  mirror : Bool
  lock : Bool
  comment : Option (List Char)
deriving DecidableEq, Repr

/-- `struct Fumen`. -/
structure Fumen where
  pages : List Page
  guideline : Bool
deriving DecidableEq, Repr

/-- `impl From<PieceType> for CellColor`. -/
def cellColorOfPieceType : PieceType → CellColor
  | .I => .I
  | .L => .L
  | .O => .O
  | .Z => .Z
  | .T => .T
  | .J => .J
  | .S => .S

/-- `fn decode_cell_color(value: usize) -> Option<CellColor>`. -/
def decode_cell_color : Nat → Option CellColor
  | 0 => some .Empty
  | 1 => some .I
  | 2 => some .L
  | 3 => some .O
  | 4 => some .Z
  | 5 => some .T
  | 6 => some .J
  | 7 => some .S
  | 8 => some .Grey
  | _ => none

/-- `const BASE64_CHARS: [u8; 64]` — byte values, exactly the source table. -/
def BASE64_CHARS : List Nat :=
  [65, 66, 67, 68, 69, 70, 71, 72, 73, 74,
   75, 76, 77, 78, 79, 80, 81, 82, 83, 84,
   85, 86, 87, 88, 89, 90, 97, 98, 99, 100,
   101, 102, 103, 104, 105, 106, 107, 108, 109, 110,
   111, 112, 113, 114, 115, 116, 117, 118, 119, 120,
   121, 122, 48, 49, 50, 51, 52, 53, 54, 55,
   56, 57, 43, 47]

/-- Indexing into `BASE64_CHARS` (always used with an index < 64 in the source). -/
def b64c (n : Nat) : Nat := BASE64_CHARS.getD n 0

/-- `fn from_base64(c: char) -> Option<usize>`. -/
def from_base64 (c : Char) : Option Nat :=
  if 65 ≤ c.toNat ∧ c.toNat ≤ 90 then some (c.toNat - 65)
  else if 97 ≤ c.toNat ∧ c.toNat ≤ 122 then some (c.toNat - 97 + 26)
  else if 48 ≤ c.toNat ∧ c.toNat ≤ 57 then some (c.toNat - 48 + 52)
  else if c = '+' then some 62
  else if c = '/' then some 63
  else none

/-- Emit `k` base-64 digits of `n`, least-significant digit first
(the source writes `CHARS[n & 0x3F]`, `CHARS[n >> 6 & 0x3F]`, ...). -/
def pushNum (n k : Nat) : List Nat :=
  (List.range k).map (fun i => b64c (n / 64 ^ i % 64))

/-- `Piece::cells`: the four occupied cells (absolute, `i32` coordinates). -/
def Piece.cells (p : Piece) : List (Int × Int) :=
  let base : List (Int × Int) :=
    match p.kind with
    | .I => [(-1, 0), (0, 0), (1, 0), (2, 0)]
    | .O => [(0, 0), (1, 0), (0, 1), (1, 1)]
    | .T => [(-1, 0), (0, 0), (1, 0), (0, 1)]
    | .L => [(-1, 0), (0, 0), (1, 0), (1, 1)]
    | .J => [(-1, 0), (0, 0), (1, 0), (-1, 1)]
    | .S => [(-1, 0), (0, 0), (0, 1), (1, 1)]
    | .Z => [(1, 0), (0, 0), (0, 1), (-1, 1)]
  base.map (fun q =>
    let r : Int × Int :=
      match p.rotation with
      | .North => q
      | .East => (q.2, -q.1)
      | .South => (-q.1, -q.2)
      | .West => (-q.2, q.1)
    (r.1 + (p.x : Int), r.2 + (p.y : Int)))

/-- The x half of `Piece::fumen_pos`: true center → fumen center.
Rust `u32` subtraction panics on underflow; here it truncates, and validity
(`Piece.valid`) rules the underflow out. -/
def Piece.fumen_x (p : Piece) : Nat :=
  match p.kind, p.rotation with
  | .S, .East => p.x + 1
  | .Z, .West => p.x - 1
  | .O, .West => p.x - 1
  | .O, .South => p.x - 1
  | .I, .South => p.x - 1
  | _, _ => p.x

/-- The y half of `Piece::fumen_pos`: true center → fumen center. -/
def Piece.fumen_y (p : Piece) : Nat :=
  match p.kind, p.rotation with
  | .S, .North => p.y + 1
  | .Z, .North => p.y + 1
  | .O, .North => p.y + 1
  | .O, .West => p.y + 1
  | .I, .West => p.y + 1
  | _, _ => p.y

/-- `Piece::fumen_pos`: the format position number `x + (22 - y) * 10`. -/
def Piece.fumen_pos (p : Piece) : Nat :=
  p.fumen_x + (22 - p.fumen_y) * 10

/-- `Piece::fumen_number`. -/
def Piece.fumen_number (p : Piece) : Nat :=
  p.kind.num + 8 * p.rotation.num + 32 * p.fumen_pos

/-- Whether the `u32` subtractions inside `Piece::fumen_pos` cannot underflow. -/
def Piece.xOk (p : Piece) : Bool :=
  match p.kind, p.rotation with
  | .Z, .West => 1 ≤ p.x
  | .O, .West => 1 ≤ p.x
  | .O, .South => 1 ≤ p.x
  | .I, .South => 1 ≤ p.x
  | _, _ => true

/-- Structural validity of a piece placement: the format center is a real cell
(`fumen_x ≤ 9`, `fumen_y ≤ 22`, no `u32` underflow in the conversion) and the
four occupied cells are inside the 10×23 playfield.  The source treats
violations as caller precondition violations (panics). -/
def Piece.valid (p : Piece) : Bool :=
  p.xOk && p.fumen_x ≤ 9 && p.fumen_y ≤ 22 &&
    p.cells.all (fun c => 0 ≤ c.1 && c.1 ≤ 9 && 0 ≤ c.2 && c.2 ≤ 22)

/-- The `bool as u32` cast. -/
def bnum (b : Bool) : Nat := if b then 1 else 0

/-- `Page::fumen_number`: the packed page-flag word (without the first-page
guideline term, which `Fumen::encode` adds separately). -/
def Page.fumen_number (p : Page) : Nat :=
  (match p.piece with
   | some pc => pc.fumen_number
   | none => 0) +
  240 * 32 * (bnum p.rise + 2 * bnum p.mirror +
    8 * bnum p.comment.isSome + 16 * bnum (!p.lock))

/-- An all-empty playfield row. -/
def emptyRow : List CellColor := List.replicate 10 CellColor.Empty

/-- `Page::fumen_field`, flattened to the 240-cell format order: playfield
rows top-down (row 22 first), then the garbage row. -/
def Page.fumen_field (p : Page) : List CellColor :=
  (p.field.reverse ++ [p.garbage_row]).flatten

/-- `fn fumen_field_delta`: per-cell `8 + to - from`, over the flattened
240-cell order.  (`usize` arithmetic; `8 + to ≥ from` always holds since cell
values are ≤ 8, so no underflow.) -/
def fumen_field_delta (src dst : List CellColor) : List Nat :=
  List.zipWith (fun (f : CellColor) (t : CellColor) => 8 + t.num - f.num) src dst

/-- Is a playfield row full (no empty cell)?  Source: `cleared` stays `true`
iff no cell is `Empty`. -/
def rowFull (r : List CellColor) : Bool := r.all (fun c => c != CellColor.Empty)

/-- The line-clear compaction loop from `Page::next_page`: rows with an empty
cell are kept in order at the bottom, the rest of the 23 rows become empty. -/
def lineClear (field : List (List CellColor)) : List (List CellColor) :=
  let kept := field.filter (fun r => !rowFull r)
  kept ++ List.replicate (23 - kept.length) emptyRow

/-- Writing one cell of the piece into the field
(`field[y as usize][x as usize] = color`).  The source panics when the cell is
out of bounds; the model leaves the field unchanged there, and every claim
about pieces assumes `Piece.valid`, which puts all four cells in bounds. -/
def setCell (field : List (List CellColor)) (x y : Int) (c : CellColor) :
    List (List CellColor) :=
  if 0 ≤ x ∧ 0 ≤ y then
    field.set y.toNat ((field.getD y.toNat []).set x.toNat c)
  else field

/-- `Page::next_page`: lock, line clear, rise, mirror — in that order. -/
def Page.next_page (p : Page) : Page :=
  let field :=
    match p.piece with
    | some piece =>
        if p.lock then
          piece.cells.foldl (fun f c => setCell f c.1 c.2 (cellColorOfPieceType piece.kind)) p.field
        else p.field
    | none => p.field
  let field := lineClear field
  let field := if p.rise then p.garbage_row :: field.take 22 else field
  let field := if p.mirror then field.map List.reverse else field
  { piece := none
    comment := none
    rise := false
    mirror := false
    lock := p.lock
    field := field
    garbage_row := if p.rise then emptyRow else p.garbage_row }

/-- `impl Default for Page`. -/
def Page.default : Page :=
  { piece := none
    field := List.replicate 23 emptyRow
    garbage_row := emptyRow
    rise := false
    mirror := false
    lock := true
    comment := none }

/-- `impl Default for Fumen`. -/
def Fumen.default : Fumen := { pages := [], guideline := true }

/-- The page `Fumen::add_page` appends: `next_page` of the last page, or the
default page for an empty document. -/
def Fumen.newPage (f : Fumen) : Page :=
  match f.pages.getLast? with
  | some p => p.next_page
  | none => Page.default

/-- `Fumen::add_page` (the source also returns a mutable reference to the new
page; the model returns the grown document and accesses the last page
explicitly). -/
def Fumen.add_page (f : Fumen) : Fumen :=
  { f with pages := f.pages ++ [f.newPage] }

theorem cellColor_num_le (c : CellColor) : c.num ≤ 8 := by cases c <;> simp [CellColor.num]

theorem cellColor_num_inj {a b : CellColor} (h : a.num = b.num) : a = b := by
  cases a <;> cases b <;> simp_all [CellColor.num]

theorem decode_cell_color_num (c : CellColor) : decode_cell_color c.num = some c := by
  cases c <;> rfl

/-- `const HEX_DIGITS: [u8; 16]` — byte values `0-9A-F`. -/
def HEX_DIGITS : List Nat :=
  [48, 49, 50, 51, 52, 53, 54, 55, 56, 57, 65, 66, 67, 68, 69, 70]

/-- Indexing into `HEX_DIGITS` (always used with a nibble < 16). -/
def hexDigit (n : Nat) : Nat := HEX_DIGITS.getD n 0

/-- `char::encode_utf16`: the UTF-16 code units of one Unicode scalar value. -/
def encodeUtf16 (c : Char) : List Nat :=
  if c.toNat < 0x10000 then [c.toNat]
  else [0xD800 + (c.toNat - 0x10000) / 0x400, 0xDC00 + (c.toNat - 0x10000) % 0x400]

/-- The characters `js_escape` passes through literally:
ASCII alphanumerics and `@ * _ + - . /`. -/
def escLiteral (c : Char) : Bool :=
  (97 ≤ c.toNat && c.toNat ≤ 122) || (65 ≤ c.toNat && c.toNat ≤ 90) ||
  (48 ≤ c.toNat && c.toNat ≤ 57) ||
  c == '@' || c == '*' || c == '_' || c == '+' || c == '-' || c == '.' || c == '/'

/-- The escaped bytes `js_escape` emits for a single character. -/
def jsEscapeChar (c : Char) : List Nat :=
  if escLiteral c then [c.toNat]
  else if c.toNat ≤ 0xFF then
    [37, hexDigit (c.toNat / 16 % 16), hexDigit (c.toNat % 16)]
  else
    (encodeUtf16 c).flatMap
      (fun u => [37, 117, hexDigit (u / 4096 % 16), hexDigit (u / 256 % 16),
                 hexDigit (u / 16 % 16), hexDigit (u % 16)])

/-- `fn js_escape(s: &str) -> Vec<u8>`. -/
def js_escape (s : List Char) : List Nat := s.flatMap jsEscapeChar

/-- `char::to_digit(16)`. -/
def hexVal (c : Char) : Option Nat :=
  if 48 ≤ c.toNat ∧ c.toNat ≤ 57 then some (c.toNat - 48)
  else if 97 ≤ c.toNat ∧ c.toNat ≤ 102 then some (c.toNat - 87)
  else if 65 ≤ c.toNat ∧ c.toNat ≤ 70 then some (c.toNat - 55)
  else none

/-- The inner `decode` helper of `js_unescape`: consume up to `n` characters,
folding in the hex digits among them (non-hex characters are skipped but still
consumed). -/
def decodeHex (cs : List Char) (n : Nat) : Nat :=
  (cs.take n).foldl
    (fun acc c => match hexVal c with
      | some v => acc * 16 + v
      | none => acc) 0

/-- The UTF-16 code units `js_unescape` accumulates before the final lossy
conversion.  A literal character is pushed with `as u16` (truncating). -/
def jsUnescapeUnits : List Char → List Nat
  | [] => []
  | c :: rest =>
    if c = '%' then
      if rest.head? = some 'u' then
        decodeHex (rest.drop 1) 4 :: jsUnescapeUnits ((rest.drop 1).drop 4)
      else
        decodeHex rest 2 :: jsUnescapeUnits (rest.drop 2)
    else (c.toNat % 65536) :: jsUnescapeUnits rest
termination_by cs => cs.length
decreasing_by all_goals simp only [List.length_drop, List.length_cons]; omega

/-- `String::from_utf16_lossy`: well-formed surrogate pairs recombine, unpaired
surrogates become U+FFFD. -/
def utf16Lossy : List Nat → List Char
  | [] => []
  | u :: rest =>
    if u < 0xD800 ∨ 0xE000 ≤ u then Char.ofNat u :: utf16Lossy rest
    else if u < 0xDC00 then
      match rest with
      | v :: rest2 =>
        if 0xDC00 ≤ v ∧ v < 0xE000 then
          Char.ofNat (0x10000 + (u - 0xD800) * 0x400 + (v - 0xDC00)) :: utf16Lossy rest2
        else Char.ofNat 0xFFFD :: utf16Lossy (v :: rest2)
      | [] => [Char.ofNat 0xFFFD]
    else Char.ofNat 0xFFFD :: utf16Lossy rest
termination_by us => us.length
decreasing_by all_goals simp only [List.length_cons]; omega

/-- `fn js_unescape(s: &str) -> String`. -/
def js_unescape (s : List Char) : List Char := utf16Lossy (jsUnescapeUnits s)

/-- Split a list into chunks of 4 (Rust `slice::chunks(4)`). -/
def chunks4 : List Nat → List (List Nat)
  | [] => []
  | a :: rest => (a :: rest.take 3) :: chunks4 (rest.drop 3)
termination_by l => l.length
decreasing_by simp only [List.length_drop, List.length_cons]; omega

/-- Split a list into chunks of 10 (rows of the flattened field). -/
def chunks10 {α : Type} : List α → List (List α)
  | [] => []
  | a :: rest => (a :: rest.take 9) :: chunks10 (rest.drop 9)
termination_by l => l.length
decreasing_by simp only [List.length_drop, List.length_cons]; omega

/-- One 4-byte chunk of an escaped comment packed as a base-96 integer and
emitted as 5 base-64 digits (the inner loops of the comment branch of
`Fumen::encode`). -/
def packChunk (chunk : List Nat) : List Nat :=
  pushNum (chunk.foldr (fun b acc => acc * 96 + (b - 0x20)) 0) 5

/-- The bytes the encoder emits for a page comment: the escaped length as two
base-64 digits, then the packed 4-byte chunks. -/
def commentBytes (c : List Char) : List Nat :=
  let escaped := (js_escape c).take 4095
  pushNum escaped.length 2 ++ (chunks4 escaped).flatMap packChunk

/-- The combined page-header integer: `Page::fumen_number` plus, on the first
page only, `guideline as usize * 240 * 128`. -/
def pageFlagsWord (g first : Bool) (p : Page) : Nat :=
  p.fumen_number + (if first then (if g then 240 * 128 else 0) else 0)

/-- Everything the encoder emits for a page after its field data: the 3-digit
header word, then the comment bytes when a comment is present. -/
def pageTail (g first : Bool) (p : Page) : List Nat :=
  pushNum (pageFlagsWord g first p) 3 ++
    (match p.comment with
     | some c => commentBytes c
     | none => [])

/-- The run-length-encoding loop over the 240 deltas: `prev` is the value of
the current run, `count` its length so far (the source starts with
`prev = deltas[0][0]`, `count = 0` and then folds every cell, which is the
same as starting from the first cell with `count = 1`). -/
def rleGo : List Nat → Nat → Nat → List Nat
  | [], prev, count => pushNum (prev * 240 + count - 1) 2
  | d :: rest, prev, count =>
    if d = prev then rleGo rest prev (count + 1)
    else pushNum (prev * 240 + count - 1) 2 ++ rleGo rest d 1

/-- The run-length encoding of a (nonempty, 240-cell) delta list. -/
def rleBytes (deltas : List Nat) : List Nat :=
  match deltas with
  | [] => []
  | d :: rest => rleGo rest d 1

/-- The all-unchanged delta. -/
def allEight : List Nat := List.replicate 240 8

/-- The loop state of `Fumen::encode`: the output buffer, the carried-forward
baseline field, the open unchanged-run (patch index into `data` and current
count), and whether the next page is the document's first. -/
structure EncSt where
  data : List Nat
  prev_field : List CellColor
  empty_field : Option (Nat × Nat)
  first : Bool
deriving DecidableEq, Repr

/-- The body of the `for page in &self.pages` loop of `Fumen::encode`. -/
def encStep (g : Bool) (st : EncSt) (page : Page) : EncSt :=
  let deltas := fumen_field_delta st.prev_field page.fumen_field
  let st1 : EncSt :=
    if deltas = allEight then
      match st.empty_field with
      | some (index, count) =>
        -- count this page into the open run; at 63 patch the digit and close
        if count + 1 = 63 then
          { st with data := st.data.set index (b64c 63), empty_field := none }
        else
          { st with empty_field := some (index, count + 1) }
      | none =>
        -- new unchanged-run marker: literal 'v' 'h' then a placeholder digit
        { st with data := st.data ++ [118, 104, 0],
                  empty_field := some (st.data.length + 2, 0) }
    else
      -- finalize any open run, then run-length encode the deltas
      let data :=
        match st.empty_field with
        | some (index, count) => st.data.set index (b64c count)
        | none => st.data
      { st with data := data ++ rleBytes deltas, empty_field := none }
  { data := st1.data ++ pageTail g st.first page
    prev_field := page.next_page.fumen_field
    empty_field := st1.empty_field
    first := false }

/-- The literal header bytes `"v115@"`. -/
def headerBytes : List Nat := [118, 49, 49, 53, 64]

/-- `Fumen::encode` (returning the output bytes; the source wraps them in a
`String`, all bytes being ASCII). -/
def Fumen.encode (f : Fumen) : List Nat :=
  let st := f.pages.foldl (encStep f.guideline)
    { data := headerBytes
      prev_field := List.replicate 240 CellColor.Empty
      empty_field := none
      first := true }
  match st.empty_field with
  | some (index, count) => st.data.set index (b64c count)
  | none => st.data

/-- `iter.next()??`: `fail` both when the stream ends and when the character
was not in the base-64 alphabet. -/
def parseDigit : List (Option Nat) → Res (Nat × List (Option Nat))
  | [] => .fail
  | none :: _ => .fail
  | some d :: rest => .ok (d, rest)

/-- Two digits little-endian (`iter.next()?? + iter.next()?? * 64`). -/
def parse2 (s : List (Option Nat)) : Res (Nat × List (Option Nat)) :=
  match parseDigit s with
  | .ok (d0, s1) =>
    match parseDigit s1 with
    | .ok (d1, s2) => .ok (d0 + d1 * 64, s2)
    | .fail => .fail
    | .crash => .crash
  | .fail => .fail
  | .crash => .crash

/-- Three digits little-endian (the page-data word). -/
def parse3 (s : List (Option Nat)) : Res (Nat × List (Option Nat)) :=
  match parseDigit s with
  | .ok (d0, s1) =>
    match parseDigit s1 with
    | .ok (d1, s2) =>
      match parseDigit s2 with
      | .ok (d2, s3) => .ok (d0 + d1 * 64 + d2 * 64 * 64, s3)
      | .fail => .fail
      | .crash => .crash
    | .fail => .fail
    | .crash => .crash
  | .fail => .fail
  | .crash => .crash

/-- Five digits little-endian (one packed comment chunk). -/
def parse5 (s : List (Option Nat)) : Res (Nat × List (Option Nat)) :=
  match parse3 s with
  | .ok (n, s3) =>
    match parseDigit s3 with
    | .ok (d3, s4) =>
      match parseDigit s4 with
      | .ok (d4, s5) => .ok (n + d3 * 64 ^ 3 + d4 * 64 ^ 4, s5)
      | .fail => .fail
      | .crash => .crash
    | .fail => .fail
    | .crash => .crash
  | .fail => .fail
  | .crash => .crash

/-- The field-spec decoding loop of `Fumen::decode`: read 2-digit groups,
`value = number / 240`, `repeats = number % 240 + 1`, fill cells linearly;
`fail` when a run would pass cell 240 (`if y == 24 return None`) or when the
stream runs dry mid-field. -/
def parseFieldGo (s : List (Option Nat)) (filled : Nat) (acc : List Nat) :
    Res (List Nat × List (Option Nat)) :=
  if filled = 240 then .ok (acc, s)
  else
    match parse2 s with
    | .ok (number, s2) =>
      let value := number / 240
      let repeats := number % 240 + 1
      if 240 < filled + repeats then .fail
      else parseFieldGo s2 (filled + repeats) (acc ++ List.replicate repeats value)
    | .fail => .fail
    | .crash => .crash
termination_by 240 - filled
decreasing_by omega

/-- Piece kind from `number % 8` (the `match piece_type` of the source;
`none` is its `unreachable!()` arm). -/
def pieceTypeOfNum : Nat → Option PieceType
  | 1 => some .I
  | 2 => some .L
  | 3 => some .O
  | 4 => some .Z
  | 5 => some .T
  | 6 => some .J
  | 7 => some .S
  | _ => none

/-- Rotation from `number / 8 % 4`. -/
def rotationOfNum : Nat → Option RotationState
  | 0 => some .South
  | 1 => some .East
  | 2 => some .North
  | 3 => some .West
  | _ => none

/-- The piece-decoding part of `Fumen::decode`, on the three extracted
subfields of the page word.  `y = 22 - piece_pos / 10` and the fumen→SRS
center corrections are `u32` subtractions: underflow is a Rust panic,
modelled as `crash`. -/
def decodePieceCore (piece_type piece_rot piece_pos : Nat) : Res (Option Piece) :=
  if piece_type = 0 then .ok none
  else
    match pieceTypeOfNum piece_type, rotationOfNum piece_rot with
    | some kind, some rotation =>
      if 22 < piece_pos / 10 then .crash
      else
        let x := piece_pos % 10
        let y := 22 - piece_pos / 10
        let xres : Res Nat :=
          match kind, rotation with
          | .S, .East => if x = 0 then .crash else .ok (x - 1)
          | .Z, .West => .ok (x + 1)
          | .O, .West => .ok (x + 1)
          | .O, .South => .ok (x + 1)
          | .I, .South => .ok (x + 1)
          | _, _ => .ok x
        let yres : Res Nat :=
          match kind, rotation with
          | .S, .North => if y = 0 then .crash else .ok (y - 1)
          | .Z, .North => if y = 0 then .crash else .ok (y - 1)
          | .O, .North => if y = 0 then .crash else .ok (y - 1)
          | .O, .West => if y = 0 then .crash else .ok (y - 1)
          | .I, .West => if y = 0 then .crash else .ok (y - 1)
          | _, _ => .ok y
        match xres, yres with
        | .ok xv, .ok yv => .ok (some { kind := kind, rotation := rotation, x := xv, y := yv })
        | _, _ => .crash
    | _, _ => .crash

/-- One cell of the field-reconstruction loop:
`value = delta + previous as usize - 8` (underflow panics), then
`decode_cell_color(value)?`; applied along a row. -/
def combineRow : List Nat → List CellColor → Res (List CellColor)
  | [], [] => .ok []
  | d :: ds, c :: cs =>
    if d + c.num < 8 then .crash
    else
      match decode_cell_color (d + c.num - 8) with
      | none => .fail
      | some col =>
        match combineRow ds cs with
        | .ok rest => .ok (col :: rest)
        | .fail => .fail
        | .crash => .crash
  | _, _ => .fail

/-- The rows of the field-reconstruction loop, in format order (the source
iterates `y` over format rows 0..22 writing `field[22 - y]`, so the rows
walked are the reverse of the y-up field). -/
def combineRows : List (List Nat) → List (List CellColor) → Res (List (List CellColor))
  | [], [] => .ok []
  | dr :: drs, r :: rs =>
    match combineRow dr r with
    | .ok r2 =>
      match combineRows drs rs with
      | .ok rest => .ok (r2 :: rest)
      | .fail => .fail
      | .crash => .crash
    | .fail => .fail
    | .crash => .crash
  | _, _ => .fail

/-- The full field-reconstruction of `Fumen::decode`: the 240 deltas are cut
into 24 format rows, rows 0..22 patch the reversed playfield, row 23 patches
the garbage row. -/
def applyFieldDelta (delta : List Nat) (field : List (List CellColor))
    (garbage : List CellColor) : Res (List (List CellColor) × List CellColor) :=
  let rows := chunks10 delta
  match combineRows (rows.take 23) field.reverse with
  | .ok newRev =>
    match combineRow (rows.getD 23 []) garbage with
    | .ok g2 => .ok (newRev.reverse, g2)
    | .fail => .fail
    | .crash => .crash
  | .fail => .fail
  | .crash => .crash

/-- Extract up to `k` characters from one packed comment chunk
(`number % 96 + 0x20`, `number /= 96`; the `char::from_u32` always succeeds
since the value is in `[0x20, 0x7F]`). -/
def extractChars : Nat → Nat → List Char
  | _, 0 => []
  | n, k + 1 => Char.ofNat (n % 96 + 0x20) :: extractChars (n / 96) k

/-- The comment-decoding loop (`while length > 0`). -/
def parseCommentGo (s : List (Option Nat)) (len : Nat) (escaped : List Char) :
    Res (List Char × List (Option Nat)) :=
  if len = 0 then .ok (escaped, s)
  else
    match parse5 s with
    | .ok (number, s2) =>
      parseCommentGo s2 (len - min len 4) (escaped ++ extractChars number (min len 4))
    | .fail => .fail
    | .crash => .crash
termination_by len
decreasing_by omega

/-- Replace the last page (the decoder mutates `page` through the reference
returned by `add_page`). -/
def Fumen.setLast (f : Fumen) (p : Page) : Fumen :=
  { f with pages := f.pages.dropLast ++ [p] }

/-- The field-decoding part of the `Fumen::decode` loop body: when no
unchanged-run is pending, parse the 240 deltas, read the following digit as
the new run counter when the delta is all-8, and patch the page's field and
garbage row; otherwise just consume one page of the pending run. -/
def decodeFieldPart (s : List (Option Nat)) (page : Page) (ef : Nat) :
    Res (Page × Nat × List (Option Nat)) :=
  if ef = 0 then
    match parseFieldGo s 0 [] with
    | .ok (delta, s1) =>
      match (if delta = allEight then parseDigit s1 else .ok (0, s1)) with
      | .ok (ef1, s2) =>
        match applyFieldDelta delta page.field page.garbage_row with
        | .ok (field2, garbage2) =>
          .ok ({ page with field := field2, garbage_row := garbage2 }, ef1, s2)
        | .fail => .fail
        | .crash => .crash
      | .fail => .fail
      | .crash => .crash
    | .fail => .fail
    | .crash => .crash
  else .ok (page, ef - 1, s)

/-- The comment-decoding part of the `Fumen::decode` loop body: the 2-digit
escaped length, then the packed chunks. -/
def decodeCommentPart (s : List (Option Nat)) : Res (List Char × List (Option Nat)) :=
  match parse2 s with
  | .ok (len, s3) => parseCommentGo s3 len []
  | .fail => .fail
  | .crash => .crash

/-- The page-data part of the `Fumen::decode` loop body: the 3-digit page
word, the piece, the flag bits, and the optional comment. -/
def decodePageData (s1 : List (Option Nat)) (page1 : Page) (ef1 : Nat) :
    Res (Page × Bool × Nat × List (Option Nat)) :=
  match parse3 s1 with
  | .ok (number, s2) =>
    match decodePieceCore (number % 8) (number / 8 % 4) (number / 32 % 240) with
    | .ok piece =>
      let flags := number / 32 / 240
      let page2 : Page :=
        { page1 with
            piece := piece
            rise := (flags &&& 1) != 0
            mirror := (flags &&& 2) != 0
            lock := (flags &&& 16) == 0 }
      let guideline : Bool := (flags &&& 4) != 0
      if (flags &&& 8) != 0 then
        match decodeCommentPart s2 with
        | .ok (escaped, s4) =>
          .ok ({ page2 with comment := some (js_unescape escaped) }, guideline, ef1, s4)
        | .fail => .fail
        | .crash => .crash
      else .ok (page2, guideline, ef1, s2)
    | .fail => .fail
    | .crash => .crash
  | .fail => .fail
  | .crash => .crash

def decodePageStep (s : List (Option Nat)) (page : Page) (ef : Nat) :
    Res (Page × Bool × Nat × List (Option Nat)) :=
  match decodeFieldPart s page ef with
  | .ok (page1, ef1, s1) => decodePageData s1 page1 ef1
  | .fail => .fail
  | .crash => .crash

theorem parseDigit_length {s r : List (Option Nat)} {d : Nat}
    (h : parseDigit s = .ok (d, r)) : r.length + 1 = s.length := by
  match s with
  | [] => simp [parseDigit] at h
  | none :: _ => simp [parseDigit] at h
  | some a :: rest => simp [parseDigit] at h; simp [h]

theorem parse2_length {s r : List (Option Nat)} {n : Nat}
    (h : parse2 s = .ok (n, r)) : r.length + 2 = s.length := by
  unfold parse2 at h
  split at h
  · rename_i d0 s1 h0
    split at h
    · rename_i d1 s2 h1
      obtain ⟨-, rfl⟩ := Res.ok.inj h |> Prod.mk.inj
      have e0 := parseDigit_length h0
      have e1 := parseDigit_length h1
      omega
    · cases h
    · cases h
  · cases h
  · cases h

theorem parse3_length {s r : List (Option Nat)} {n : Nat}
    (h : parse3 s = .ok (n, r)) : r.length + 3 = s.length := by
  unfold parse3 at h
  split at h
  · rename_i d0 s1 h0
    split at h
    · rename_i d1 s2 h1
      split at h
      · rename_i d2 s3 h2
        obtain ⟨-, rfl⟩ := Res.ok.inj h |> Prod.mk.inj
        have e0 := parseDigit_length h0
        have e1 := parseDigit_length h1
        have e2 := parseDigit_length h2
        omega
      · cases h
      · cases h
    · cases h
    · cases h
  · cases h
  · cases h

theorem parse5_length {s r : List (Option Nat)} {n : Nat}
    (h : parse5 s = .ok (n, r)) : r.length + 5 = s.length := by
  unfold parse5 at h
  split at h
  · rename_i n3 s3 h3
    split at h
    · rename_i d3 s4 h4
      split at h
      · rename_i d4 s5 h5
        obtain ⟨-, rfl⟩ := Res.ok.inj h |> Prod.mk.inj
        have e3 := parse3_length h3
        have e4 := parseDigit_length h4
        have e5 := parseDigit_length h5
        omega
      · cases h
      · cases h
    · cases h
    · cases h
  · cases h
  · cases h

theorem parseFieldGo_length : ∀ (s : List (Option Nat)) (filled : Nat) (acc : List Nat)
    {δ : List Nat} {r : List (Option Nat)},
    parseFieldGo s filled acc = .ok (δ, r) → r.length ≤ s.length := by
  intro s filled acc
  induction s, filled, acc using parseFieldGo.induct with
  | case1 s acc =>
    intro δ r h
    unfold parseFieldGo at h
    simp only [if_pos rfl] at h
    obtain ⟨-, rfl⟩ := Res.ok.inj h |> Prod.mk.inj
    exact le_refl _
  | case2 s filled acc hf number s2 hp rep =>
    rename_i hover
    intro δ r h
    unfold parseFieldGo at h
    rw [if_neg hf, hp] at h
    simp only [if_pos hover] at h
    cases h
  | case3 s filled acc hf number s2 hp value rep =>
    rename_i hover ih
    intro δ r h
    unfold parseFieldGo at h
    rw [if_neg hf, hp] at h
    simp only [if_neg hover] at h
    have := ih h
    have := parse2_length hp
    omega
  | case4 s filled acc hf hp =>
    intro δ r h
    unfold parseFieldGo at h
    rw [if_neg hf, hp] at h
    cases h
  | case5 s filled acc hf hp =>
    intro δ r h
    unfold parseFieldGo at h
    rw [if_neg hf, hp] at h
    cases h

theorem parseCommentGo_length : ∀ (s : List (Option Nat)) (len : Nat) (escaped : List Char)
    {cs : List Char} {r : List (Option Nat)},
    parseCommentGo s len escaped = .ok (cs, r) → r.length ≤ s.length := by
  intro s len escaped
  induction s, len, escaped using parseCommentGo.induct with
  | case1 s escaped =>
    intro cs r h
    unfold parseCommentGo at h
    simp only [if_pos rfl] at h
    obtain ⟨-, rfl⟩ := Res.ok.inj h |> Prod.mk.inj
    exact le_refl _
  | case2 s len escaped hl number s2 hp ih =>
    intro cs r h
    unfold parseCommentGo at h
    rw [if_neg hl, hp] at h
    have := ih h
    have := parse5_length hp
    omega
  | case3 s len escaped hl hp =>
    intro cs r h
    unfold parseCommentGo at h
    rw [if_neg hl, hp] at h
    cases h
  | case4 s len escaped hl hp =>
    intro cs r h
    unfold parseCommentGo at h
    rw [if_neg hl, hp] at h
    cases h

theorem decodeFieldPart_length {s : List (Option Nat)} {page : Page} {ef : Nat}
    {page1 : Page} {ef1 : Nat} {s1 : List (Option Nat)}
    (h : decodeFieldPart s page ef = .ok (page1, ef1, s1)) : s1.length ≤ s.length := by
  unfold decodeFieldPart at h
  split at h
  · split at h
    · rename_i delta s1b hpf
      split at h
      · rename_i ef1b s2b hefd
        split at h
        · rename_i field2 garbage2 hap
          have e1 : s2b = s1 := (Prod.mk.inj (Res.ok.inj h |> Prod.mk.inj).2).2
          have h1 := parseFieldGo_length _ _ _ hpf
          have h2 : s2b.length ≤ s1b.length := by
            split at hefd
            · have := parseDigit_length hefd
              omega
            · obtain ⟨-, e⟩ := Res.ok.inj hefd |> Prod.mk.inj
              rw [← e]
          rw [← e1]
          exact le_trans h2 h1
        · cases h
        · cases h
      · cases h
      · cases h
    · cases h
    · cases h
  · have e1 : s = s1 := (Prod.mk.inj (Res.ok.inj h |> Prod.mk.inj).2).2
    rw [← e1]

theorem decodeCommentPart_length {s r : List (Option Nat)} {cs : List Char}
    (h : decodeCommentPart s = .ok (cs, r)) : r.length < s.length := by
  unfold decodeCommentPart at h
  split at h
  · rename_i len s3 hlen
    have h2l := parse2_length hlen
    have hcl := parseCommentGo_length _ _ _ h
    omega
  · cases h
  · cases h

theorem decodePageData_length {s1 : List (Option Nat)} {page1 : Page} {ef1 : Nat}
    {page2 : Page} {g : Bool} {ef2 : Nat} {s2 : List (Option Nat)}
    (h : decodePageData s1 page1 ef1 = .ok (page2, g, ef2, s2)) : s2.length < s1.length := by
  unfold decodePageData at h
  split at h
  · rename_i number s1b h3
    have h3l := parse3_length h3
    split at h
    · rename_i piece hpc
      split at h
      · rename_i escaped s4 hcm
        have hcl := decodeCommentPart_length hcm
        dsimp only [] at h
        split at h
        · have e1 : s4 = s2 :=
            (Prod.mk.inj (Prod.mk.inj (Prod.mk.inj (Res.ok.inj h)).2).2).2
          subst e1
          omega
        · have e1 : s1b = s2 :=
            (Prod.mk.inj (Prod.mk.inj (Prod.mk.inj (Res.ok.inj h)).2).2).2
          subst e1
          omega
      · dsimp only [] at h
        split at h
        · cases h
        · have e1 : s1b = s2 :=
            (Prod.mk.inj (Prod.mk.inj (Prod.mk.inj (Res.ok.inj h)).2).2).2
          subst e1
          omega
      · dsimp only [] at h
        split at h
        · cases h
        · have e1 : s1b = s2 :=
            (Prod.mk.inj (Prod.mk.inj (Prod.mk.inj (Res.ok.inj h)).2).2).2
          subst e1
          omega
    · cases h
    · cases h
  · cases h
  · cases h

theorem decodePageStep_length {s : List (Option Nat)} {page : Page} {ef : Nat}
    {page2 : Page} {g : Bool} {ef2 : Nat} {s2 : List (Option Nat)}
    (h : decodePageStep s page ef = .ok (page2, g, ef2, s2)) : s2.length < s.length := by
  unfold decodePageStep at h
  split at h
  · rename_i page1 ef1 s1 hfield
    have hf := decodeFieldPart_length hfield
    have hd := decodePageData_length h
    omega
  · cases h
  · cases h

/-- The `while iter.peek().is_some()` loop of `Fumen::decode`. -/
def decodeGo (s : List (Option Nat)) (fumen : Fumen) (ef : Nat) : Res Fumen :=
  match s with
  | [] => .ok fumen
  | a :: rest =>
    let f1 := fumen.add_page
    match h : decodePageStep (a :: rest) (f1.pages.getLast?.getD Page.default) ef with
    | .ok (page, g, ef2, s2) =>
      let f2 := f1.setLast page
      let f3 := if f2.pages.length = 1 then { f2 with guideline := g } else f2
      decodeGo s2 f3 ef2
    | .fail => .fail
    | .crash => .crash
termination_by s.length
decreasing_by exact decodePageStep_length h

/-- `Fumen::decode`.  The source's `&data[..5]` slice panics (crash) for
inputs shorter than the 5-byte header; the header comparison then rejects
anything that is not `"v115@"`; the rest of the input is streamed through
`from_base64`. -/
def Fumen.decode (data : List Char) : Res Fumen :=
  if data.length < 5 then .crash
  else if data.take 5 ≠ ['v', '1', '1', '5', '@'] then .fail
  else decodeGo ((data.drop 5).map from_base64) Fumen.default 0

/-- Shape of a page: 23 playfield rows of 10 cells and a 10-cell garbage row
(the Rust arrays `[[CellColor; 10]; 23]` and `[CellColor; 10]`). -/
def Page.shapeOk (p : Page) : Bool :=
  p.field.length == 23 && p.field.all (fun r => r.length == 10) &&
    p.garbage_row.length == 10

/-- Structural validity of a page: correct shape, a valid piece placement if
a piece is present, and a comment whose escaped form fits the 4095-byte
length field. -/
def Page.wf (p : Page) : Bool :=
  p.shapeOk &&
  (match p.piece with
   | some pc => pc.valid
   | none => true) &&
  (match p.comment with
   | some c => (js_escape c).length ≤ 4095
   | none => true)

/-- Structural validity of a document. -/
def Fumen.wf (f : Fumen) : Bool := f.pages.all Page.wf

/-- The digit value the decoder sees for an output byte. -/
def byteDigit (b : Nat) : Option Nat := from_base64 (Char.ofNat b)

theorem byteDigit_b64c : ∀ d : Nat, d < 64 → byteDigit (b64c d) = some d := by decide

theorem byteDigit_marker_v : byteDigit 118 = some 47 := by decide

theorem byteDigit_marker_h : byteDigit 104 = some 33 := by decide

theorem pushNum_two (n : Nat) : pushNum n 2 = [b64c (n % 64), b64c (n / 64 % 64)] := by
  simp [pushNum, List.range_succ]

theorem pushNum_three (n : Nat) :
    pushNum n 3 = [b64c (n % 64), b64c (n / 64 % 64), b64c (n / 4096 % 64)] := by
  simp [pushNum, List.range_succ]

theorem pushNum_five (n : Nat) :
    pushNum n 5 = [b64c (n % 64), b64c (n / 64 % 64), b64c (n / 4096 % 64),
      b64c (n / 262144 % 64), b64c (n / 16777216 % 64)] := by
  simp [pushNum, List.range_succ]

theorem parseDigit_byteDigit_b64c {d : Nat} (h : d < 64) (rest : List Nat) :
    parseDigit ((b64c d :: rest).map byteDigit) = .ok (d, rest.map byteDigit) := by
  simp [parseDigit, byteDigit_b64c d h]

theorem parse2_pushNum {n : Nat} (h : n < 4096) (rest : List Nat) :
    parse2 ((pushNum n 2 ++ rest).map byteDigit) = .ok (n, rest.map byteDigit) := by
  rw [pushNum_two]
  simp only [List.cons_append, List.nil_append, List.map_cons, parse2,
    parseDigit, byteDigit_b64c _ (by omega : n % 64 < 64),
    byteDigit_b64c _ (by omega : n / 64 % 64 < 64)]
  have e : n % 64 + n / 64 % 64 * 64 = n := by omega
  rw [e]

theorem parse3_pushNum {n : Nat} (h : n < 262144) (rest : List Nat) :
    parse3 ((pushNum n 3 ++ rest).map byteDigit) = .ok (n, rest.map byteDigit) := by
  rw [pushNum_three]
  simp only [List.cons_append, List.nil_append, List.map_cons, parse3,
    parseDigit, byteDigit_b64c _ (by omega : n % 64 < 64),
    byteDigit_b64c _ (by omega : n / 64 % 64 < 64),
    byteDigit_b64c _ (by omega : n / 4096 % 64 < 64)]
  have e : n % 64 + n / 64 % 64 * 64 + n / 4096 % 64 * 64 * 64 = n := by omega
  rw [e]

theorem parse5_pushNum {n : Nat} (h : n < 1073741824) (rest : List Nat) :
    parse5 ((pushNum n 5 ++ rest).map byteDigit) = .ok (n, rest.map byteDigit) := by
  rw [pushNum_five]
  simp only [List.cons_append, List.nil_append, List.map_cons, parse5, parse3,
    parseDigit, byteDigit_b64c _ (by omega : n % 64 < 64),
    byteDigit_b64c _ (by omega : n / 64 % 64 < 64),
    byteDigit_b64c _ (by omega : n / 4096 % 64 < 64),
    byteDigit_b64c _ (by omega : n / 262144 % 64 < 64),
    byteDigit_b64c _ (by omega : n / 16777216 % 64 < 64)]
  have e : n % 64 + n / 64 % 64 * 64 + n / 4096 % 64 * 64 * 64
      + n / 262144 % 64 * 64 ^ 3 + n / 16777216 % 64 * 64 ^ 4 = n := by omega
  rw [e]

theorem decodePieceCore_roundtrip (pc : Piece) (hv : pc.valid = true) :
    decodePieceCore pc.kind.num pc.rotation.num pc.fumen_pos = .ok (some pc) := by
  obtain ⟨k, r, x, y⟩ := pc
  simp only [Piece.valid, Bool.and_eq_true, decide_eq_true_eq] at hv
  obtain ⟨⟨⟨hxok, hfx⟩, hfy⟩, -⟩ := hv
  cases k <;> cases r <;>
    simp only [Piece.xOk, Piece.fumen_x, Piece.fumen_y, Piece.fumen_pos,
      PieceType.num, RotationState.num, decide_eq_true_eq] at hxok hfx hfy ⊢ <;>
    simp only [decodePieceCore, pieceTypeOfNum, rotationOfNum] <;>
    norm_num <;>
    rw [if_neg (by omega)] <;>
    (try rw [if_neg (by omega)]) <;>
    simp only [Res.ok.injEq, Option.some.injEq, Piece.mk.injEq, true_and] <;>
    exact ⟨by omega, by omega⟩

theorem PieceType.num_bounds (k : PieceType) : 1 ≤ k.num ∧ k.num ≤ 7 := by
  cases k <;> simp [PieceType.num]

theorem RotationState.num_le (r : RotationState) : r.num ≤ 3 := by
  cases r <;> simp [RotationState.num]

theorem Piece.valid_bounds {pc : Piece} (hv : pc.valid = true) :
    pc.fumen_x ≤ 9 ∧ pc.fumen_y ≤ 22 := by
  simp only [Piece.valid, Bool.and_eq_true, decide_eq_true_eq] at hv
  exact ⟨hv.1.1.2, hv.1.2⟩

theorem Piece.fumen_pos_le {pc : Piece} (hv : pc.valid = true) : pc.fumen_pos ≤ 229 := by
  obtain ⟨hfx, hfy⟩ := Piece.valid_bounds hv
  unfold Piece.fumen_pos
  omega

theorem Piece.fumen_number_lt {pc : Piece} (hv : pc.valid = true) :
    pc.fumen_number < 7680 := by
  have hk := pc.kind.num_bounds
  have hr := pc.rotation.num_le
  have hp := Piece.fumen_pos_le hv
  unfold Piece.fumen_number
  omega

/-- The packed flag bits of a page header word (`flags = number / 32 / 240`). -/
def flagBits (p : Page) : Nat :=
  bnum p.rise + 2 * bnum p.mirror + 8 * bnum p.comment.isSome + 16 * bnum (!p.lock)

theorem flagBits_le (p : Page) : flagBits p ≤ 27 := by
  unfold flagBits bnum
  split <;> split <;> split <;> split <;> omega

theorem Page.fumen_number_eq (p : Page) :
    p.fumen_number = (match p.piece with
      | some pc => pc.fumen_number
      | none => 0) + 7680 * flagBits p := by
  unfold Page.fumen_number flagBits
  ring

theorem Page.piecePart_lt {p : Page} (hwf : p.wf = true) :
    (match p.piece with
      | some pc => pc.fumen_number
      | none => 0) < 7680 := by
  simp only [Page.wf, Bool.and_eq_true] at hwf
  obtain ⟨⟨-, hpv⟩, -⟩ := hwf
  match hpc : p.piece with
  | some pc =>
    rw [hpc] at hpv
    exact Piece.fumen_number_lt hpv
  | none => simp

theorem Page.fumen_number_bound {p : Page} (hwf : p.wf = true) :
    p.fumen_number < 215040 := by
  have h1 := Page.fumen_number_eq p
  have h2 := Page.piecePart_lt hwf
  have h3 := flagBits_le p
  omega

theorem pageFlagsWord_lt {p : Page} (g first : Bool) (hwf : p.wf = true) :
    pageFlagsWord g first p < 262144 := by
  have := Page.fumen_number_bound hwf
  unfold pageFlagsWord
  split
  · split <;> omega
  · omega

/-- Decomposition of the full header word: the piece part, the flag bits, and
the first-page guideline bit (`4` within `flags`). -/
theorem pageFlagsWord_eq (p : Page) (g first : Bool) :
    pageFlagsWord g first p = (match p.piece with
      | some pc => pc.fumen_number
      | none => 0) + 7680 * (flagBits p + 4 * bnum (first && g)) := by
  unfold pageFlagsWord bnum
  rw [Page.fumen_number_eq]
  cases first <;> cases g <;> simp <;> ring

theorem flags_bits_extract (a b c d e : Bool) :
    ((bnum a + 2 * bnum b + 8 * bnum c + 16 * bnum d + 4 * bnum e) &&& 1 != 0) = a ∧
    ((bnum a + 2 * bnum b + 8 * bnum c + 16 * bnum d + 4 * bnum e) &&& 2 != 0) = b ∧
    ((bnum a + 2 * bnum b + 8 * bnum c + 16 * bnum d + 4 * bnum e) &&& 8 != 0) = c ∧
    ((bnum a + 2 * bnum b + 8 * bnum c + 16 * bnum d + 4 * bnum e) &&& 16 == 0) = !d ∧
    ((bnum a + 2 * bnum b + 8 * bnum c + 16 * bnum d + 4 * bnum e) &&& 4 != 0) = e := by
  cases a <;> cases b <;> cases c <;> cases d <;> cases e <;> decide

/-- Extraction of the subfields of the header word as the decoder computes
them. -/
theorem pageFlagsWord_extract {p : Page} (g first : Bool) (hwf : p.wf = true) :
    (pageFlagsWord g first p % 8 = (match p.piece with
      | some pc => pc.fumen_number
      | none => 0) % 8) ∧
    (pageFlagsWord g first p / 8 % 4 = (match p.piece with
      | some pc => pc.fumen_number
      | none => 0) / 8 % 4) ∧
    (pageFlagsWord g first p / 32 % 240 = (match p.piece with
      | some pc => pc.fumen_number
      | none => 0) / 32) ∧
    (pageFlagsWord g first p / 32 / 240 = flagBits p + 4 * bnum (first && g)) := by
  have he := pageFlagsWord_eq p g first
  have hl := Page.piecePart_lt hwf
  refine ⟨?_, ?_, ?_, ?_⟩ <;> omega

/-- C8: for every page `p`, `next_page p` clears piece, comment, rise and
mirror, carries `lock` forward, keeps the garbage row when `rise` is unset and
empties it when `rise` is set; and (rise set, mirror unset) the old garbage
row is injected as the new bottom playfield row. -/
theorem next_page_state_c8 (p : Page) :
    (p.next_page).piece = none ∧
    (p.next_page).comment = none ∧
    (p.next_page).rise = false ∧
    (p.next_page).mirror = false ∧
    (p.next_page).lock = p.lock ∧
    (p.next_page).garbage_row = (if p.rise then emptyRow else p.garbage_row) ∧
    (p.rise = true → p.mirror = false → (p.next_page).field.head? = some p.garbage_row) := by
  refine ⟨rfl, rfl, rfl, rfl, rfl, rfl, ?_⟩
  intro hr hm
  unfold Page.next_page
  rw [hr, hm]
  simp

/-- C8 witness: a concrete page with `rise` set and `mirror` unset. -/
theorem next_page_state_c8_witness :
    (Page.next_page { Page.default with rise := true }).field.head? =
      some { Page.default with rise := true }.garbage_row :=
  (next_page_state_c8 { Page.default with rise := true }).2.2.2.2.2.2 rfl rfl

/-- C10: the default page has `lock = true`, no piece, no comment, cleared
rise and mirror flags, an all-empty field and garbage row; its header word is 0
(so the `not_lock` bit is 0); and `add_page` appends `newPage`, which carries
the previous last page's `lock` through `next_page`. -/
theorem page_default_c10 :
    Page.default.lock = true ∧
    Page.default.piece = none ∧
    Page.default.comment = none ∧
    Page.default.rise = false ∧
    Page.default.mirror = false ∧
    Page.default.field = List.replicate 23 emptyRow ∧
    Page.default.garbage_row = emptyRow ∧
    Page.default.fumen_number = 0 ∧
    (∀ f : Fumen, f.add_page.pages = f.pages ++ [f.newPage]) ∧
    (∀ (f : Fumen) (p : Page), f.pages.getLast? = some p → f.newPage.lock = p.lock) := by
  refine ⟨rfl, rfl, rfl, rfl, rfl, rfl, rfl, by decide, fun f => rfl, ?_⟩
  intro f p hp
  unfold Fumen.newPage
  rw [hp]
  rfl

/-- C10 witness: `add_page` carries `lock = false` to the appended page. -/
theorem page_default_c10_witness :
    (Fumen.newPage { pages := [{ Page.default with lock := false }], guideline := true }).lock =
      ({ Page.default with lock := false } : Page).lock :=
  page_default_c10.2.2.2.2.2.2.2.2.2
    { pages := [{ Page.default with lock := false }], guideline := true }
    { Page.default with lock := false } rfl

/-- C2 (code bug): `Fumen::decode` slices `&data[..5]` before checking the
length, so an input shorter than 5 bytes makes it panic instead of
returning `None`. -/
theorem decode_short_input_c2 : Fumen.decode ['v', '1'] = .crash := rfl

/-- C5: for a structurally valid piece, converting the true rotation center
with the forward correction table (`Piece::fumen_pos`) and then applying the
decoder's format-to-true conversion is the identity on
(kind, rotation, x, y). -/
theorem piece_pos_roundtrip_c5 (pc : Piece) (hv : pc.valid = true) :
    decodePieceCore pc.kind.num pc.rotation.num pc.fumen_pos = .ok (some pc) :=
  decodePieceCore_roundtrip pc hv

/-- C5 witness: a T piece, rotation North, true center (2, 0). -/
theorem piece_pos_roundtrip_c5_witness :
    decodePieceCore (Piece.mk .T .North 2 0).kind.num (Piece.mk .T .North 2 0).rotation.num
      (Piece.mk .T .North 2 0).fumen_pos = .ok (some (Piece.mk .T .North 2 0)) :=
  piece_pos_roundtrip_c5 (Piece.mk .T .North 2 0) (by decide)

/-- C3 counterexample: with the guideline flag set, the first page's header
word gains `240 * 128`, not `240 * 32 * 128` as claimed. -/
theorem guideline_term_c3_counterexample :
    pageFlagsWord true true Page.default = Page.fumen_number Page.default + 240 * 128 ∧
    pageFlagsWord true true Page.default ≠ Page.fumen_number Page.default + 240 * 32 * 128 := by
  decide

/-- C3 (amended): the first page's header word carries an additional
`240 * 128` (= `240 * 32 * 4`, i.e. bit 2 of the flags field) exactly when the
document-wide guideline flag is set; later pages never carry it; and the
decoder recovers the flag as bit 2 of `number / 32 / 240`. -/
theorem guideline_term_c3 (p : Page) (g : Bool) (hwf : p.wf = true) :
    pageFlagsWord g true p = p.fumen_number + (if g then 240 * 128 else 0) ∧
    pageFlagsWord g false p = p.fumen_number ∧
    ((pageFlagsWord g true p / 32 / 240) &&& 4 != 0) = g := by
  have h4 := (pageFlagsWord_extract g true hwf).2.2.2
  refine ⟨rfl, by unfold pageFlagsWord; simp, ?_⟩
  rw [h4]
  have hb := (flags_bits_extract p.rise p.mirror p.comment.isSome (!p.lock) g).2.2.2.2
  simpa [flagBits, Bool.true_and] using hb

/-- C3 witness: the default page with the flag set and unset. -/
theorem guideline_term_c3_witness :
    (pageFlagsWord true true Page.default =
      Page.fumen_number Page.default + (if true then 240 * 128 else 0)) ∧
    pageFlagsWord true false Page.default = Page.fumen_number Page.default ∧
    ((pageFlagsWord true true Page.default / 32 / 240) &&& 4 != 0) = true :=
  guideline_term_c3 Page.default true (by decide)

/-- C6: the page header word is
`piece_field_number + 240*32*(rise + 2*mirror + 8*has_comment + 16*not_lock)`,
it fits in three base-64 digits, and the three emitted little-endian digits
decode back to exactly that word. -/
theorem header_word_c6 (p : Page) (g first : Bool) (hwf : p.wf = true) (rest : List Nat) :
    p.fumen_number = (match p.piece with
      | some pc => pc.kind.num + 8 * pc.rotation.num + 32 * pc.fumen_pos
      | none => 0) + 240 * 32 * (bnum p.rise + 2 * bnum p.mirror +
        8 * bnum p.comment.isSome + 16 * bnum (!p.lock)) ∧
    pageFlagsWord g first p < 64 ^ 3 ∧
    parse3 ((pushNum (pageFlagsWord g first p) 3 ++ rest).map byteDigit) =
      .ok (pageFlagsWord g first p, rest.map byteDigit) := by
  have hlt := pageFlagsWord_lt g first hwf
  refine ⟨rfl, by norm_num; omega, ?_⟩
  exact parse3_pushNum (by omega) rest

/-- C6 witness: the default page on the first page with the flag set. -/
theorem header_word_c6_witness :
    (Page.default.fumen_number = (match Page.default.piece with
      | some pc => pc.kind.num + 8 * pc.rotation.num + 32 * pc.fumen_pos
      | none => 0) + 240 * 32 * (bnum Page.default.rise + 2 * bnum Page.default.mirror +
        8 * bnum Page.default.comment.isSome + 16 * bnum (!Page.default.lock))) ∧
    pageFlagsWord true true Page.default < 64 ^ 3 ∧
    parse3 ((pushNum (pageFlagsWord true true Page.default) 3 ++ []).map byteDigit) =
      .ok (pageFlagsWord true true Page.default, List.map byteDigit []) :=
  header_word_c6 Page.default true true (by decide) []

/-- The digit stream of a list of 2-digit groups. -/
def groupBytes (gs : List (Nat × Nat)) : List (Option Nat) :=
  gs.flatMap (fun g => [some g.1, some g.2])

/-- The cell expansion of a list of 2-digit groups:
`number = digit0 + digit1 * 64`, `value = number / 240`,
`repeats = number % 240 + 1`. -/
def groupCells (gs : List (Nat × Nat)) : List Nat :=
  gs.flatMap (fun g => List.replicate ((g.1 + g.2 * 64) % 240 + 1) ((g.1 + g.2 * 64) / 240))

theorem parse2_shape {s r : List (Option Nat)} {n : Nat} (h : parse2 s = .ok (n, r)) :
    ∃ d0 d1, s = some d0 :: some d1 :: r ∧ n = d0 + d1 * 64 := by
  match s with
  | [] => simp [parse2, parseDigit] at h
  | none :: _ => simp [parse2, parseDigit] at h
  | some d0 :: [] => simp [parse2, parseDigit] at h
  | some d0 :: none :: _ => simp [parse2, parseDigit] at h
  | some d0 :: some d1 :: t =>
    refine ⟨d0, d1, ?_, ?_⟩ <;>
      simp only [parse2, parseDigit, Res.ok.injEq, Prod.mk.injEq] at h <;>
      simp [h.1, h.2]

theorem parseFieldGo_sound : ∀ (s : List (Option Nat)) (filled : Nat) (acc : List Nat)
    {δ : List Nat} {r : List (Option Nat)},
    parseFieldGo s filled acc = .ok (δ, r) →
    ∃ gs, s = groupBytes gs ++ r ∧ δ = acc ++ groupCells gs ∧
      filled + (groupCells gs).length = 240 := by
  intro s filled acc
  induction s, filled, acc using parseFieldGo.induct with
  | case1 s acc =>
    intro δ r h
    unfold parseFieldGo at h
    simp only [if_pos rfl] at h
    obtain ⟨rfl, rfl⟩ := Res.ok.inj h |> Prod.mk.inj
    exact ⟨[], by simp [groupBytes, groupCells]⟩
  | case2 s filled acc hf number s2 hp rep =>
    rename_i hover
    intro δ r h
    unfold parseFieldGo at h
    rw [if_neg hf, hp] at h
    simp only [if_pos hover] at h
    cases h
  | case3 s filled acc hf number s2 hp value rep =>
    rename_i hover ih
    intro δ r h
    unfold parseFieldGo at h
    rw [if_neg hf, hp] at h
    simp only [if_neg hover] at h
    obtain ⟨gs, hs, hδ, hlen⟩ := ih h
    obtain ⟨d0, d1, hsh, hn⟩ := parse2_shape hp
    refine ⟨(d0, d1) :: gs, ?_, ?_, ?_⟩
    · simp [groupBytes, hsh, hs]
    · simp [groupCells, hδ, ← hn]
    · simp only [groupCells, List.flatMap_cons, List.length_append,
        List.length_replicate, ← hn]
      simp only [groupCells] at hlen
      omega
  | case4 s filled acc hf hp =>
    intro δ r h
    unfold parseFieldGo at h
    rw [if_neg hf, hp] at h
    cases h
  | case5 s filled acc hf hp =>
    intro δ r h
    unfold parseFieldGo at h
    rw [if_neg hf, hp] at h
    cases h

theorem parseFieldGo_complete : ∀ (gs : List (Nat × Nat)) (r : List (Option Nat))
    (filled : Nat) (acc : List Nat), filled + (groupCells gs).length = 240 →
    parseFieldGo (groupBytes gs ++ r) filled acc = .ok (acc ++ groupCells gs, r) := by
  intro gs
  induction gs with
  | nil =>
    intro r filled acc hlen
    simp only [groupCells, List.flatMap_nil, List.length_nil, Nat.add_zero] at hlen
    unfold parseFieldGo
    simp [hlen, groupBytes, groupCells]
  | cons g gs ih =>
    intro r filled acc hlen
    simp only [groupCells, List.flatMap_cons, List.length_append, List.length_replicate] at hlen
    have hrep : (g.1 + g.2 * 64) % 240 + 1 ≤ 240 - filled := by omega
    unfold parseFieldGo
    rw [if_neg (by omega)]
    have hb : groupBytes (g :: gs) ++ r = some g.1 :: some g.2 :: (groupBytes gs ++ r) := by
      simp [groupBytes]
    rw [hb]
    simp only [parse2, parseDigit]
    rw [if_neg (by omega)]
    have := ih r (filled + ((g.1 + g.2 * 64) % 240 + 1))
      (acc ++ List.replicate ((g.1 + g.2 * 64) % 240 + 1) ((g.1 + g.2 * 64) / 240))
      (by simp only [groupCells] at hlen ⊢; omega)
    simp only [groupCells] at this ⊢
    rw [this]
    simp [List.append_assoc]

theorem parseFieldGo_overflow : ∀ (gs : List (Nat × Nat)) (d0 d1 : Nat)
    (t : List (Option Nat)) (filled : Nat) (acc : List Nat),
    filled + (groupCells gs).length < 240 →
    240 < filled + (groupCells gs).length + ((d0 + d1 * 64) % 240 + 1) →
    parseFieldGo (groupBytes gs ++ some d0 :: some d1 :: t) filled acc = .fail := by
  intro gs
  induction gs with
  | nil =>
    intro d0 d1 t filled acc hlt hover
    simp only [groupCells, List.flatMap_nil, List.length_nil, Nat.add_zero] at hlt hover
    unfold parseFieldGo
    rw [if_neg (by omega)]
    simp only [groupBytes, List.flatMap_nil, List.nil_append, parse2, parseDigit]
    rw [if_pos (by omega)]
  | cons g gs ih =>
    intro d0 d1 t filled acc hlt hover
    simp only [groupCells, List.flatMap_cons, List.length_append, List.length_replicate] at hlt hover
    unfold parseFieldGo
    rw [if_neg (by omega)]
    have hb : groupBytes (g :: gs) ++ some d0 :: some d1 :: t
        = some g.1 :: some g.2 :: (groupBytes gs ++ some d0 :: some d1 :: t) := by
      simp [groupBytes]
    rw [hb]
    simp only [parse2, parseDigit]
    rw [if_neg (by omega)]
    exact ih d0 d1 t _ _ (by simp only [groupCells]; omega) (by simp only [groupCells]; omega)

theorem parseFieldGo_dry : ∀ (gs : List (Nat × Nat)) (filled : Nat) (acc : List Nat),
    filled + (groupCells gs).length < 240 →
    parseFieldGo (groupBytes gs) filled acc = .fail := by
  intro gs
  induction gs with
  | nil =>
    intro filled acc hlt
    simp only [groupCells, List.flatMap_nil, List.length_nil, Nat.add_zero] at hlt
    unfold parseFieldGo
    rw [if_neg (by omega)]
    simp [groupBytes, parse2, parseDigit]
  | cons g gs ih =>
    intro filled acc hlt
    simp only [groupCells, List.flatMap_cons, List.length_append, List.length_replicate] at hlt
    unfold parseFieldGo
    rw [if_neg (by omega)]
    have hb : groupBytes (g :: gs) = some g.1 :: some g.2 :: groupBytes gs := by
      simp [groupBytes]
    rw [hb]
    simp only [parse2, parseDigit]
    rw [if_neg (by omega)]
    exact ih _ _ (by simp only [groupCells]; omega)

/-- C7: the field-delta decode loop reads 2-digit groups as
`number = digit0 + 64*digit1`, fills `number % 240 + 1` cells with
`number / 240` in linear order until exactly 240 cells are filled; it fails
when a run would pass the 240th cell and when the stream runs dry first. -/
theorem field_decode_c7 :
    (∀ (s : List (Option Nat)) (δ : List Nat) (r : List (Option Nat)),
      parseFieldGo s 0 [] = .ok (δ, r) →
      ∃ gs, s = groupBytes gs ++ r ∧ δ = groupCells gs ∧ δ.length = 240) ∧
    (∀ (gs : List (Nat × Nat)) (r : List (Option Nat)), (groupCells gs).length = 240 →
      parseFieldGo (groupBytes gs ++ r) 0 [] = .ok (groupCells gs, r)) ∧
    (∀ (gs : List (Nat × Nat)) (d0 d1 : Nat) (t : List (Option Nat)),
      (groupCells gs).length < 240 →
      240 < (groupCells gs).length + ((d0 + d1 * 64) % 240 + 1) →
      parseFieldGo (groupBytes gs ++ some d0 :: some d1 :: t) 0 [] = .fail) ∧
    (∀ gs : List (Nat × Nat), (groupCells gs).length < 240 →
      parseFieldGo (groupBytes gs) 0 [] = .fail) := by
  refine ⟨?_, ?_, ?_, ?_⟩
  · intro s δ r h
    obtain ⟨gs, hs, hδ, hlen⟩ := parseFieldGo_sound s 0 [] h
    exact ⟨gs, hs, by simpa using hδ, by simp [hδ]; omega⟩
  · intro gs r hlen
    have := parseFieldGo_complete gs r 0 [] (by omega)
    simpa using this
  · intro gs d0 d1 t hlt hover
    exact parseFieldGo_overflow gs d0 d1 t 0 [] (by omega) (by omega)
  · intro gs hlt
    exact parseFieldGo_dry gs 0 [] (by omega)

set_option maxRecDepth 4096 in
/-- C7 witness: the marker group `(47, 33)` expands to exactly 240 cells and
parses; a single small group leaves the stream dry; an oversized second run
overflows. -/
theorem field_decode_c7_witness :
    parseFieldGo (groupBytes [(47, 33)] ++ [some 5]) 0 [] =
      .ok (groupCells [(47, 33)], [some 5]) ∧
    parseFieldGo (groupBytes [(0, 0)]) 0 [] = .fail ∧
    parseFieldGo (groupBytes [(0, 0)] ++ some 47 :: some 33 :: []) 0 [] = .fail :=
  ⟨field_decode_c7.2.1 [(47, 33)] [some 5] (by decide),
   field_decode_c7.2.2.2 [(0, 0)] (by decide),
   field_decode_c7.2.2.1 [(0, 0)] 47 33 [] (by decide) (by decide)⟩

theorem combineRow_all8 : ∀ row : List CellColor,
    combineRow (List.replicate row.length 8) row = .ok row := by
  intro row
  induction row with
  | nil => rfl
  | cons c cs ih =>
    simp only [List.length_cons, List.replicate_succ, combineRow]
    rw [if_neg (by omega)]
    have e : 8 + c.num - 8 = c.num := by omega
    rw [e, decode_cell_color_num, ih]

theorem combineRows_all8 : ∀ fs : List (List CellColor), (∀ r ∈ fs, r.length = 10) →
    combineRows (List.replicate fs.length (List.replicate 10 8)) fs = .ok fs := by
  intro fs
  induction fs with
  | nil => intro _; rfl
  | cons r rs ih =>
    intro hlen
    have hstep : List.replicate (r :: rs).length (List.replicate 10 (8 : Nat))
        = List.replicate r.length 8 :: List.replicate rs.length (List.replicate 10 8) := by
      rw [List.length_cons, List.replicate_succ, hlen r (by simp)]
    rw [hstep]
    simp only [combineRows]
    rw [combineRow_all8, ih (fun q hq => hlen q (by simp [hq]))]

theorem chunks10_replicate {α : Type} (a : α) : ∀ n : Nat,
    chunks10 (List.replicate (10 * n) a) = List.replicate n (List.replicate 10 a) := by
  intro n
  induction n with
  | zero => simp [chunks10]
  | succ k ih =>
    have h1 : 10 * (k + 1) = 10 + 10 * k := by ring
    rw [h1, List.replicate_add]
    have h2 : List.replicate 10 a ++ List.replicate (10 * k) a
        = a :: (List.replicate 9 a ++ List.replicate (10 * k) a) := by
      simp [List.replicate_succ]
    rw [h2]
    simp only [chunks10]
    have h3 : (List.replicate 9 a ++ List.replicate (10 * k) a).take 9 = List.replicate 9 a := by
      have := List.take_left (List.replicate 9 a) (List.replicate (10 * k) a)
      rwa [List.length_replicate] at this
    have h4 : (List.replicate 9 a ++ List.replicate (10 * k) a).drop 9
        = List.replicate (10 * k) a := by
      have := List.drop_left (List.replicate 9 a) (List.replicate (10 * k) a)
      rwa [List.length_replicate] at this
    rw [h3, h4, ih]
    rfl

theorem chunks10_allEight : chunks10 allEight = List.replicate 24 (List.replicate 10 8) := by
  have := chunks10_replicate (8 : Nat) 24
  norm_num at this
  exact this

set_option maxRecDepth 4096 in
theorem applyFieldDelta_all8 {field : List (List CellColor)} {garbage : List CellColor}
    (hf : field.length = 23) (hr : ∀ r ∈ field, r.length = 10)
    (hg : garbage.length = 10) :
    applyFieldDelta allEight field garbage = .ok (field, garbage) := by
  unfold applyFieldDelta
  dsimp only []
  rw [chunks10_allEight]
  have ht : (List.replicate 24 (List.replicate 10 (8 : Nat))).take 23
      = List.replicate field.reverse.length (List.replicate 10 8) := by
    rw [List.take_replicate, List.length_reverse, hf]
    norm_num
  rw [ht, combineRows_all8 _ (fun q hq => hr q (List.mem_reverse.mp hq))]
  have hgd : (List.replicate 24 (List.replicate 10 (8 : Nat))).getD 23 []
      = List.replicate garbage.length 8 := by
    rw [hg]
    rfl
  rw [hgd, combineRow_all8]
  simp

set_option maxRecDepth 8192 in
/-- C9: any field spec that run-length decodes to the all-8 delta makes the
decoder consume the next digit as the unchanged-run count — identically to
the literal `vh` shorthand marker (digits 47, 33), which is itself just the
RLE code for 240 cells of delta 8. -/
theorem all8_sentinel_c9 (s r : List (Option Nat)) (page : Page)
    (hshape : page.shapeOk = true)
    (h : parseFieldGo s 0 [] = .ok (allEight, r)) :
    decodePageStep s page 0 = decodePageStep (some 47 :: some 33 :: r) page 0 ∧
    decodeFieldPart s page 0 = (match parseDigit r with
      | .ok (d, s2) => .ok (page, d, s2)
      | .fail => .fail
      | .crash => .crash) := by
  simp only [Page.shapeOk, Bool.and_eq_true, List.all_eq_true, beq_iff_eq] at hshape
  obtain ⟨⟨hf23, hr10⟩, hg10⟩ := hshape
  have hm : parseFieldGo (some 47 :: some 33 :: r) 0 [] = .ok (allEight, r) := by
    have hc := parseFieldGo_complete [(47, 33)] r 0 [] (by decide)
    have hb : groupBytes [(47, 33)] ++ r = some 47 :: some 33 :: r := by rfl
    have hcells : groupCells [(47, 33)] = allEight := by decide
    rw [hb, hcells] at hc
    simpa using hc
  have happ : applyFieldDelta allEight page.field page.garbage_row
      = .ok (page.field, page.garbage_row) :=
    applyFieldDelta_all8 hf23 (fun q hq => hr10 q hq) hg10
  have hfp : ∀ t, parseFieldGo t 0 [] = .ok (allEight, r) →
      decodeFieldPart t page 0 = (match parseDigit r with
        | .ok (d, s2) => .ok (page, d, s2)
        | .fail => .fail
        | .crash => .crash) := by
    intro t ht
    unfold decodeFieldPart
    rw [if_pos rfl, ht]
    simp only [if_pos rfl]
    cases hpd : parseDigit r with
    | ok pair =>
      rw [happ]
      rfl
    | fail => rfl
    | crash => rfl
  have h1 := hfp s h
  have h2 := hfp _ hm
  refine ⟨?_, h1⟩
  unfold decodePageStep
  rw [h1, h2]

set_option maxRecDepth 8192 in
/-- C9 witness: the delta written as two runs of 120 unchanged cells
(digit pairs (55, 31), (55, 31)) behaves exactly like the `vh` marker. -/
theorem all8_sentinel_c9_witness :
    decodePageStep [some 55, some 31, some 55, some 31, some 0, some 0, some 0, some 0]
        Page.default 0 =
      decodePageStep (some 47 :: some 33 :: [some 0, some 0, some 0, some 0])
        Page.default 0 :=
  (all8_sentinel_c9 [some 55, some 31, some 55, some 31, some 0, some 0, some 0, some 0]
    [some 0, some 0, some 0, some 0] Page.default (by decide) (by
      have hc := parseFieldGo_complete [(55, 31), (55, 31)]
        [some 0, some 0, some 0, some 0] 0 [] (by decide)
      have hcells : groupCells [(55, 31), (55, 31)] = allEight := by decide
      rw [hcells] at hc
      simpa [groupBytes] using hc)).1

/-- Run-structured view of the encoder's unchanged-page handling: consume
pages while their field equals the evolving baseline, counting from `c`
(the source increments and, at 63, patches and closes the run).  Returns
(the emitted page tails, the final count digit, the remaining pages, the
final baseline). -/
def encRunGo (g : Bool) : List Page → List CellColor → Nat →
    (List Nat × Nat × List Page × List CellColor)
  | [], prev, c => ([], c, [], prev)
  | p :: ps, prev, c =>
    if fumen_field_delta prev p.fumen_field = allEight then
      if c + 1 = 63 then (pageTail g false p, 63, ps, p.next_page.fumen_field)
      else
        let out := encRunGo g ps (p.next_page.fumen_field) (c + 1)
        (pageTail g false p ++ out.1, out.2.1, out.2.2.1, out.2.2.2)
    else ([], c, p :: ps, prev)

theorem encRunGo_length (g : Bool) : ∀ (ps : List Page) (prev : List CellColor) (c : Nat),
    (encRunGo g ps prev c).2.2.1.length ≤ ps.length := by
  intro ps
  induction ps with
  | nil => intro prev c; simp [encRunGo]
  | cons p ps ih =>
    intro prev c
    unfold encRunGo
    split
    · split
      · simp
      · have := ih (p.next_page.fumen_field) (c + 1)
        simp only [List.length_cons]
        omega
    · simp

/-- Run-structured view of the whole page loop of `Fumen::encode`: the output
bytes after the `"v115@"` header, with the unchanged-run count digit already
in its final (patched) place. -/
def encR (g : Bool) : List Page → List CellColor → Bool → List Nat
  | [], _, _ => []
  | p :: ps, prev, first =>
    let deltas := fumen_field_delta prev p.fumen_field
    if deltas = allEight then
      let out := encRunGo g ps (p.next_page.fumen_field) 0
      118 :: 104 :: b64c out.2.1 ::
        (pageTail g first p ++ out.1 ++ encR g out.2.2.1 out.2.2.2 false)
    else
      rleBytes deltas ++ pageTail g first p ++ encR g ps (p.next_page.fumen_field) false
termination_by ps => ps.length
decreasing_by
  · have := encRunGo_length g ps (p.next_page.fumen_field) 0
    simp only [List.length_cons]
    omega
  · simp only [List.length_cons]
    omega

/-- The final patch of `Fumen::encode` (writing the count digit of a run
still open at the end of the document). -/
def encFinalize (st : EncSt) : List Nat :=
  match st.empty_field with
  | some (index, count) => st.data.set index (b64c count)
  | none => st.data

theorem encode_eq_finalize (f : Fumen) :
    f.encode = encFinalize (f.pages.foldl (encStep f.guideline)
      { data := headerBytes
        prev_field := List.replicate 240 CellColor.Empty
        empty_field := none
        first := true }) := rfl

theorem set_append_cons {A B : List Nat} {x y : Nat} :
    (A ++ x :: B).set A.length y = A ++ y :: B := by
  induction A with
  | nil => rfl
  | cons a A ih => simp [List.set, ih]

theorem encStep_none (g first : Bool) (data : List Nat) (prev : List CellColor) (p : Page) :
    encStep g ⟨data, prev, none, first⟩ p =
      if fumen_field_delta prev p.fumen_field = allEight then
        ⟨data ++ [118, 104, 0] ++ pageTail g first p, p.next_page.fumen_field,
          some (data.length + 2, 0), false⟩
      else
        ⟨data ++ rleBytes (fumen_field_delta prev p.fumen_field) ++ pageTail g first p,
          p.next_page.fumen_field, none, false⟩ := by
  by_cases hd : fumen_field_delta prev p.fumen_field = allEight <;>
    simp [encStep, hd, List.append_assoc]

theorem encStep_some (g first : Bool) (data : List Nat) (prev : List CellColor) (p : Page)
    (index c : Nat) :
    encStep g ⟨data, prev, some (index, c), first⟩ p =
      if fumen_field_delta prev p.fumen_field = allEight then
        if c + 1 = 63 then
          ⟨data.set index (b64c 63) ++ pageTail g first p,
            p.next_page.fumen_field, none, false⟩
        else
          ⟨data ++ pageTail g first p, p.next_page.fumen_field, some (index, c + 1), false⟩
      else
        ⟨data.set index (b64c c) ++ rleBytes (fumen_field_delta prev p.fumen_field)
            ++ pageTail g first p,
          p.next_page.fumen_field, none, false⟩ := by
  by_cases hd : fumen_field_delta prev p.fumen_field = allEight
  · by_cases hc : c + 1 = 63 <;> simp [encStep, hd, hc, List.append_assoc]
  · simp [encStep, hd, List.append_assoc]

theorem encFold_spec : ∀ (n : Nat) (pages : List Page), pages.length ≤ n →
    (∀ (g first : Bool) (data : List Nat) (prev : List CellColor),
      encFinalize (List.foldl (encStep g) ⟨data, prev, none, first⟩ pages)
        = data ++ encR g pages prev first) ∧
    (∀ (g : Bool) (A B : List Nat) (prev : List CellColor) (c : Nat),
      encFinalize (List.foldl (encStep g) ⟨A ++ 0 :: B, prev, some (A.length, c), false⟩ pages)
        = A ++ (b64c (encRunGo g pages prev c).2.1 ::
            (B ++ ((encRunGo g pages prev c).1
              ++ encR g (encRunGo g pages prev c).2.2.1 (encRunGo g pages prev c).2.2.2 false)))) := by
  intro n
  induction n with
  | zero =>
    intro pages hlen
    have hnil : pages = [] := List.length_eq_zero.mp (by omega)
    subst hnil
    constructor
    · intro g first data prev
      simp [encFinalize, encR]
    · intro g A B prev c
      simp [encFinalize, encRunGo, encR, set_append_cons]
  | succ k ih =>
    intro pages hlen
    match pages with
    | [] =>
      constructor
      · intro g first data prev
        simp [encFinalize, encR]
      · intro g A B prev c
        simp [encFinalize, encRunGo, encR, set_append_cons]
    | p :: ps =>
      have hps : ps.length ≤ k := by
        simp only [List.length_cons] at hlen
        omega
      constructor
      · intro g first data prev
        rw [List.foldl_cons, encStep_none]
        by_cases hd : fumen_field_delta prev p.fumen_field = allEight
        · rw [if_pos hd]
          have hsplit : (⟨data ++ [118, 104, 0] ++ pageTail g first p,
              p.next_page.fumen_field, some (data.length + 2, 0), false⟩ : EncSt)
              = ⟨(data ++ [118, 104]) ++ 0 :: pageTail g first p,
                  p.next_page.fumen_field, some ((data ++ [118, 104]).length, 0), false⟩ := by
            simp [List.append_assoc]
          rw [hsplit, (ih ps hps).2 g (data ++ [118, 104]) (pageTail g first p)
            p.next_page.fumen_field 0]
          rw [encR]
          rw [if_pos hd]
          simp [List.append_assoc]
        · rw [if_neg hd]
          rw [(ih ps hps).1 g false]
          rw [encR]
          rw [if_neg hd]
          simp [List.append_assoc]
      · intro g A B prev c
        rw [List.foldl_cons, encStep_some]
        by_cases hd : fumen_field_delta prev p.fumen_field = allEight
        · rw [if_pos hd]
          by_cases hc : c + 1 = 63
          · rw [if_pos hc]
            rw [set_append_cons]
            have hsplit : (A ++ b64c 63 :: B) ++ pageTail g false p
                = (A ++ b64c 63 :: B) ++ pageTail g false p := rfl
            rw [List.append_assoc A (b64c 63 :: B) (pageTail g false p)] at hsplit ⊢
            rw [(ih ps hps).1 g false]
            rw [encRunGo]
            rw [if_pos hd, if_pos hc]
            simp [List.append_assoc]
          · rw [if_neg hc]
            have hsplit : (⟨(A ++ 0 :: B) ++ pageTail g false p,
                p.next_page.fumen_field, some (A.length, c + 1), false⟩ : EncSt)
                = ⟨A ++ 0 :: (B ++ pageTail g false p),
                    p.next_page.fumen_field, some (A.length, c + 1), false⟩ := by
              simp [List.append_assoc]
            rw [hsplit, (ih ps hps).2 g A (B ++ pageTail g false p)
              p.next_page.fumen_field (c + 1)]
            rw [encRunGo]
            rw [if_pos hd, if_neg hc]
            simp [List.append_assoc]
        · rw [if_neg hd]
          rw [set_append_cons]
          rw [(ih ps hps).1 g false]
          rw [encRunGo]
          rw [if_neg hd]
          simp only []
          rw [encR]
          rw [if_neg hd]
          simp [List.append_assoc]

/-- `Fumen::encode` equals the header followed by the run-structured
byte stream. -/
theorem encode_eq_encR (f : Fumen) :
    f.encode = headerBytes ++ encR f.guideline f.pages (List.replicate 240 CellColor.Empty) true := by
  rw [encode_eq_finalize]
  exact (encFold_spec f.pages.length f.pages (le_refl _)).1 f.guideline true headerBytes _

theorem parseFieldGo_rleGo : ∀ (ds : List Nat) (pv count filled : Nat) (acc : List Nat)
    (rest : List Nat), pv ≤ 16 → (∀ d ∈ ds, d ≤ 16) → 1 ≤ count →
    filled + count + ds.length = 240 →
    parseFieldGo ((rleGo ds pv count ++ rest).map byteDigit) filled acc
      = .ok (acc ++ (List.replicate count pv ++ ds), rest.map byteDigit) := by
  intro ds
  induction ds with
  | nil =>
    intro pv count filled acc rest hpv hds hc hsum
    simp only [List.length_nil, Nat.add_zero] at hsum
    unfold rleGo
    have hnum : pv * 240 + count - 1 < 4096 := by omega
    unfold parseFieldGo
    rw [if_neg (by omega)]
    rw [parse2_pushNum hnum]
    dsimp only []
    have hval : (pv * 240 + count - 1) / 240 = pv := by omega
    have hrep : (pv * 240 + count - 1) % 240 + 1 = count := by omega
    rw [hval, hrep, if_neg (by omega)]
    unfold parseFieldGo
    rw [if_pos (by omega)]
    simp
  | cons d ds ih =>
    intro pv count filled acc rest hpv hds hc hsum
    simp only [List.length_cons] at hsum
    by_cases hd : d = pv
    · unfold rleGo
      rw [if_pos hd]
      have := ih pv (count + 1) filled acc rest hpv
        (fun q hq => hds q (by simp [hq])) (by omega) (by omega)
      rw [this]
      subst hd
      rw [List.replicate_succ']
      simp
    · unfold rleGo
      rw [if_neg hd]
      have hnum : pv * 240 + count - 1 < 4096 := by omega
      unfold parseFieldGo
      rw [if_neg (by omega)]
      rw [List.append_assoc, parse2_pushNum hnum]
      dsimp only []
      have hval : (pv * 240 + count - 1) / 240 = pv := by omega
      have hrep : (pv * 240 + count - 1) % 240 + 1 = count := by omega
      rw [hval, hrep, if_neg (by omega)]
      have := ih d 1 (filled + count) (acc ++ List.replicate count pv) rest
        (hds d (by simp)) (fun q hq => hds q (by simp [hq])) (le_refl _) (by omega)
      rw [this]
      simp

theorem parseFieldGo_rleBytes {δ : List Nat} (rest : List Nat)
    (hδ : δ.length = 240) (hb : ∀ d ∈ δ, d ≤ 16) :
    parseFieldGo ((rleBytes δ ++ rest).map byteDigit) 0 [] = .ok (δ, rest.map byteDigit) := by
  match δ, hδ with
  | d :: ds, hδ =>
    simp only [List.length_cons] at hδ
    unfold rleBytes
    have := parseFieldGo_rleGo ds d 1 0 [] rest (hb d (by simp))
      (fun q hq => hb q (by simp [hq])) (le_refl _) (by omega)
    rw [this]
    simp

theorem fumen_field_delta_le : ∀ (src dst : List CellColor),
    ∀ d ∈ fumen_field_delta src dst, d ≤ 16 := by
  intro src
  induction src with
  | nil => intro dst d hd; simp [fumen_field_delta] at hd
  | cons a as ih =>
    intro dst d hd
    match dst with
    | [] => simp [fumen_field_delta] at hd
    | b :: bs =>
      simp only [fumen_field_delta, List.zipWith_cons_cons, List.mem_cons] at hd
      rcases hd with rfl | hd
      · have := cellColor_num_le b
        omega
      · exact ih bs d hd

theorem fumen_field_delta_length (src dst : List CellColor) :
    (fumen_field_delta src dst).length = min src.length dst.length := by
  simp [fumen_field_delta]

theorem fumen_field_delta_self : ∀ src : List CellColor,
    fumen_field_delta src src = List.replicate src.length 8 := by
  intro src
  induction src with
  | nil => rfl
  | cons a as ih =>
    simp only [fumen_field_delta, List.zipWith_cons_cons, List.replicate_succ] at ih ⊢
    rw [ih]
    have := cellColor_num_le a
    congr 1
    omega

theorem zip_delta_eq : ∀ (src dst : List CellColor), src.length = dst.length →
    fumen_field_delta src dst = List.replicate src.length 8 → src = dst := by
  intro src
  induction src with
  | nil =>
    intro dst hl h
    match dst with
    | [] => rfl
  | cons a as ih =>
    intro dst hl h
    match dst with
    | b :: bs =>
      simp only [List.length_cons] at hl
      simp only [fumen_field_delta, List.zipWith_cons_cons, List.length_cons,
        List.replicate_succ] at h
      obtain ⟨h1, h2⟩ := List.cons.inj h
      have ha := cellColor_num_le a
      have hb := cellColor_num_le b
      have hab : a = b := cellColor_num_inj (by omega)
      have htail : as = bs := ih bs (by omega) h2
      rw [hab, htail]

theorem fumen_field_delta_all8 {src dst : List CellColor}
    (h : fumen_field_delta src dst = allEight) (hs : src.length = 240)
    (hd : dst.length = 240) : src = dst := by
  apply zip_delta_eq src dst (by omega)
  rw [hs]
  exact h

theorem shapeOk_parts {p : Page} (h : p.shapeOk = true) :
    p.field.length = 23 ∧ (∀ r ∈ p.field, r.length = 10) ∧ p.garbage_row.length = 10 := by
  simp only [Page.shapeOk, Bool.and_eq_true, List.all_eq_true, beq_iff_eq] at h
  exact ⟨h.1.1, h.1.2, h.2⟩

theorem fumen_rows_shape {p : Page} (h : p.shapeOk = true) :
    (p.field.reverse ++ [p.garbage_row]).length = 24 ∧
    (∀ r ∈ p.field.reverse ++ [p.garbage_row], r.length = 10) := by
  obtain ⟨h1, h2, h3⟩ := shapeOk_parts h
  constructor
  · simp [h1]
  · intro r hr
    rcases List.mem_append.mp hr with hr | hr
    · exact h2 r (List.mem_reverse.mp hr)
    · simp only [List.mem_singleton] at hr
      rw [hr]
      exact h3

theorem flatten_length_uniform : ∀ (rows : List (List CellColor)),
    (∀ r ∈ rows, r.length = 10) → rows.flatten.length = rows.length * 10 := by
  intro rows
  induction rows with
  | nil => intro _; rfl
  | cons r rs ih =>
    intro h
    simp only [List.flatten_cons, List.length_append, List.length_cons]
    rw [h r (by simp), ih (fun q hq => h q (by simp [hq]))]
    ring

theorem fumen_field_length {p : Page} (h : p.shapeOk = true) :
    p.fumen_field.length = 240 := by
  obtain ⟨hl, hall⟩ := fumen_rows_shape h
  unfold Page.fumen_field
  rw [flatten_length_uniform _ hall, hl]

theorem chunks10_flatten {α : Type} : ∀ rows : List (List α),
    (∀ r ∈ rows, r.length = 10) → chunks10 rows.flatten = rows := by
  intro rows
  induction rows with
  | nil => intro _; simp [chunks10]
  | cons r rs ih =>
    intro h
    have hr : r.length = 10 := h r (by simp)
    match r, hr with
    | a :: t, hr =>
      simp only [List.length_cons] at hr
      simp only [List.flatten_cons, List.cons_append]
      unfold chunks10
      have h3 : (t ++ rs.flatten).take 9 = t := by
        have := List.take_left t rs.flatten
        rwa [show t.length = 9 by omega] at this
      have h4 : (t ++ rs.flatten).drop 9 = rs.flatten := by
        have := List.drop_left t rs.flatten
        rwa [show t.length = 9 by omega] at this
      rw [h3, h4, ih (fun q hq => h q (by simp [hq]))]

theorem zipWith_flatten_uniform {α β : Type} (f : α → α → β) :
    ∀ (A B : List (List α)), A.length = B.length →
    (∀ i, (A.getD i []).length = (B.getD i []).length) →
    List.zipWith f A.flatten B.flatten = (List.zipWith (List.zipWith f) A B).flatten := by
  intro A
  induction A with
  | nil => intro B _ _; simp
  | cons ra As ih =>
    intro B hlen hrows
    match B with
    | rb :: Bs =>
      simp only [List.length_cons] at hlen
      simp only [List.flatten_cons, List.zipWith_cons_cons]
      have hr := hrows 0
      simp only [List.getD_cons_zero] at hr
      rw [List.zipWith_append _ _ _ _ _ hr]
      rw [ih Bs (by omega) (fun i => by have := hrows (i + 1); simpa using this)]

theorem combineRow_delta : ∀ (bs ts : List CellColor), bs.length = ts.length →
    combineRow (List.zipWith (fun (f : CellColor) (t : CellColor) => 8 + t.num - f.num) bs ts) bs = .ok ts := by
  intro bs
  induction bs with
  | nil =>
    intro ts h
    match ts with
    | [] => rfl
  | cons b bs ih =>
    intro ts h
    match ts with
    | t :: ts =>
      simp only [List.length_cons] at h
      simp only [List.zipWith_cons_cons, combineRow]
      have hb := cellColor_num_le b
      have ht := cellColor_num_le t
      rw [if_neg (by omega)]
      have e : 8 + t.num - b.num + b.num - 8 = t.num := by omega
      rw [e, decode_cell_color_num, ih ts (by omega)]

theorem combineRows_delta : ∀ (bs ts : List (List CellColor)), bs.length = ts.length →
    (∀ i, (bs.getD i []).length = (ts.getD i []).length) →
    combineRows (List.zipWith (List.zipWith (fun (f : CellColor) (t : CellColor) => 8 + t.num - f.num)) bs ts) bs
      = .ok ts := by
  intro bs
  induction bs with
  | nil =>
    intro ts h _
    match ts with
    | [] => rfl
  | cons b bs ih =>
    intro ts h hrows
    match ts with
    | t :: ts =>
      simp only [List.length_cons] at h
      simp only [List.zipWith_cons_cons, combineRows]
      have hr := hrows 0
      simp only [List.getD_cons_zero] at hr
      rw [combineRow_delta b t hr,
        ih ts (by omega) (fun i => by have := hrows (i + 1); simpa using this)]

theorem getD_append_len {α : Type} : ∀ (xs : List α) (y : α) (ys : List α) (d : α),
    (xs ++ y :: ys).getD xs.length d = y := by
  intro xs
  induction xs with
  | nil => intro y ys d; rfl
  | cons x xs ih => intro y ys d; simp only [List.cons_append, List.length_cons,
      List.getD_cons_succ]; exact ih y ys d


theorem getD_mem_of_lt {α : Type} {l : List α} {n : Nat} {d : α} (h : n < l.length) :
    l.getD n d ∈ l := by
  rw [List.getD_eq_getElem _ _ h]
  exact List.getElem_mem h

theorem exists_of_mem_zipWith2 {α β γ : Type} {f : α → β → γ} :
    ∀ {as : List α} {bs : List β} {c : γ}, c ∈ List.zipWith f as bs →
      ∃ a b, a ∈ as ∧ b ∈ bs ∧ c = f a b := by
  intro as
  induction as with
  | nil => intro bs c hc; simp at hc
  | cons a as ih =>
    intro bs c hc
    match bs with
    | [] => simp at hc
    | b :: bs =>
      simp only [List.zipWith_cons_cons, List.mem_cons] at hc
      rcases hc with rfl | hc
      · exact ⟨a, b, by simp, by simp, rfl⟩
      · obtain ⟨x, y, hx, hy, rfl⟩ := ih hc
        exact ⟨x, y, by simp [hx], by simp [hy], rfl⟩

theorem getD_len_eq {A B : List (List CellColor)} (n : Nat)
    (hA : ∀ r ∈ A, r.length = 10) (hB : ∀ r ∈ B, r.length = 10)
    (hlA : A.length = n) (hlB : B.length = n) :
    ∀ i, (A.getD i []).length = (B.getD i []).length := by
  intro i
  by_cases hi : i < n
  · rw [hA _ (getD_mem_of_lt (by omega)), hB _ (getD_mem_of_lt (by omega))]
  · rw [List.getD_eq_default _ _ (by omega), List.getD_eq_default _ _ (by omega)]

theorem applyFieldDelta_roundtrip {base tgt : Page} (hb : base.shapeOk = true)
    (ht : tgt.shapeOk = true) :
    applyFieldDelta (fumen_field_delta base.fumen_field tgt.fumen_field)
      base.field base.garbage_row = .ok (tgt.field, tgt.garbage_row) := by
  obtain ⟨hb1, hb2, hb3⟩ := shapeOk_parts hb
  obtain ⟨ht1, ht2, ht3⟩ := shapeOk_parts ht
  obtain ⟨hbl, hba⟩ := fumen_rows_shape hb
  obtain ⟨htl, hta⟩ := fumen_rows_shape ht
  have hflat : fumen_field_delta base.fumen_field tgt.fumen_field
      = (List.zipWith (List.zipWith (fun (f : CellColor) (t : CellColor) => 8 + t.num - f.num))
          (base.field.reverse ++ [base.garbage_row])
          (tgt.field.reverse ++ [tgt.garbage_row])).flatten := by
    unfold fumen_field_delta Page.fumen_field
    exact zipWith_flatten_uniform _ _ _ (by omega) (getD_len_eq 24 hba hta hbl htl)
  have hZ : List.zipWith (List.zipWith (fun (f : CellColor) (t : CellColor) => 8 + t.num - f.num))
      (base.field.reverse ++ [base.garbage_row]) (tgt.field.reverse ++ [tgt.garbage_row])
      = List.zipWith (List.zipWith (fun (f : CellColor) (t : CellColor) => 8 + t.num - f.num))
          base.field.reverse tgt.field.reverse
        ++ [List.zipWith (fun (f : CellColor) (t : CellColor) => 8 + t.num - f.num) base.garbage_row tgt.garbage_row] := by
    rw [List.zipWith_append _ _ _ _ _ (by simp [hb1, ht1])]
    rfl
  have hrowsZ : ∀ r ∈ List.zipWith (List.zipWith (fun (f : CellColor) (t : CellColor) => 8 + t.num - f.num))
      (base.field.reverse ++ [base.garbage_row]) (tgt.field.reverse ++ [tgt.garbage_row]),
      r.length = 10 := by
    intro r hr
    obtain ⟨a, b, ha, hbm, rfl⟩ := exists_of_mem_zipWith2 hr
    rw [List.length_zipWith, hba a ha, hta b hbm]
    simp
  have hchunks : chunks10 (fumen_field_delta base.fumen_field tgt.fumen_field)
      = List.zipWith (List.zipWith (fun (f : CellColor) (t : CellColor) => 8 + t.num - f.num))
          base.field.reverse tgt.field.reverse
        ++ [List.zipWith (fun (f : CellColor) (t : CellColor) => 8 + t.num - f.num) base.garbage_row tgt.garbage_row] := by
    rw [hflat, chunks10_flatten _ hrowsZ, hZ]
  unfold applyFieldDelta
  dsimp only []
  rw [hchunks]
  have hlenZf : (List.zipWith (List.zipWith (fun (f : CellColor) (t : CellColor) => 8 + t.num - f.num))
      base.field.reverse tgt.field.reverse).length = 23 := by
    simp [hb1, ht1]
  have htake : (List.zipWith (List.zipWith (fun (f : CellColor) (t : CellColor) => 8 + t.num - f.num))
        base.field.reverse tgt.field.reverse
      ++ [List.zipWith (fun (f : CellColor) (t : CellColor) => 8 + t.num - f.num) base.garbage_row tgt.garbage_row]).take 23
      = List.zipWith (List.zipWith (fun (f : CellColor) (t : CellColor) => 8 + t.num - f.num))
          base.field.reverse tgt.field.reverse := by
    have hq := List.take_left (List.zipWith (List.zipWith (fun (f : CellColor) (t : CellColor) => 8 + t.num - f.num))
      base.field.reverse tgt.field.reverse)
      [List.zipWith (fun (f : CellColor) (t : CellColor) => 8 + t.num - f.num) base.garbage_row tgt.garbage_row]
    rwa [hlenZf] at hq
  rw [htake]
  rw [combineRows_delta base.field.reverse tgt.field.reverse (by simp [hb1, ht1])
    (getD_len_eq 23 (fun r hr => hb2 r (List.mem_reverse.mp hr))
      (fun r hr => ht2 r (List.mem_reverse.mp hr))
      (by simp [hb1]) (by simp [ht1]))]
  have hg : (List.zipWith (List.zipWith (fun (f : CellColor) (t : CellColor) => 8 + t.num - f.num))
        base.field.reverse tgt.field.reverse
      ++ [List.zipWith (fun (f : CellColor) (t : CellColor) => 8 + t.num - f.num)
            base.garbage_row tgt.garbage_row]).getD 23 []
      = List.zipWith (fun (f : CellColor) (t : CellColor) => 8 + t.num - f.num) base.garbage_row tgt.garbage_row := by
    have hq := getD_append_len (List.zipWith (List.zipWith (fun (f : CellColor) (t : CellColor) => 8 + t.num - f.num))
      base.field.reverse tgt.field.reverse)
      (List.zipWith (fun (f : CellColor) (t : CellColor) => 8 + t.num - f.num) base.garbage_row tgt.garbage_row) [] []
    rwa [hlenZf] at hq
  rw [hg, combineRow_delta base.garbage_row tgt.garbage_row (by omega)]
  simp

theorem fumen_field_inj {p q : Page} (hp : p.shapeOk = true) (hq : q.shapeOk = true)
    (h : p.fumen_field = q.fumen_field) : p.field = q.field ∧ p.garbage_row = q.garbage_row := by
  obtain ⟨hp1, hp2, hp3⟩ := shapeOk_parts hp
  obtain ⟨hq1, hq2, hq3⟩ := shapeOk_parts hq
  have h1 : p.field.reverse ++ [p.garbage_row] = q.field.reverse ++ [q.garbage_row] := by
    have hc := congrArg chunks10 h
    unfold Page.fumen_field at hc
    rwa [chunks10_flatten _ (fumen_rows_shape hp).2,
      chunks10_flatten _ (fumen_rows_shape hq).2] at hc
  obtain ⟨h2, h3⟩ := List.append_inj h1 (by simp [hp1, hq1])
  constructor
  · have := congrArg List.reverse h2
    simpa using this
  · exact (List.cons.inj h3).1

theorem char_valid_range (c : Char) :
    c.toNat < 0xd800 ∨ (0xdfff < c.toNat ∧ c.toNat < 0x110000) := by
  have h := c.valid
  unfold UInt32.isValidChar Nat.isValidChar at h
  exact h

theorem char_toNat_lt (c : Char) : c.toNat < 0x110000 := by
  rcases char_valid_range c with h | h <;> omega

theorem char_not_surrogate (c : Char) : ¬(0xd800 ≤ c.toNat ∧ c.toNat < 0xe000) := by
  rcases char_valid_range c with h | h <;> omega

theorem toNat_ofNat_valid {n : Nat} (h : Nat.isValidChar n) : (Char.ofNat n).toNat = n := by
  unfold Char.ofNat
  rw [dif_pos h]
  rfl

theorem toNat_ofNat_small {n : Nat} (h : n < 0xd800) : (Char.ofNat n).toNat = n :=
  toNat_ofNat_valid (Or.inl h)

theorem hexDigit_range : ∀ n : Nat, n < 16 → 48 ≤ hexDigit n ∧ hexDigit n ≤ 70 := by decide

theorem hexVal_hexDigit : ∀ n : Nat, n < 16 → hexVal (Char.ofNat (hexDigit n)) = some n := by
  decide

theorem hexChar_ne_u : ∀ n : Nat, n < 16 → ¬(Char.ofNat (hexDigit n) = 'u') := by decide

theorem hexChar_ne_percent : ∀ n : Nat, n < 16 → ¬(Char.ofNat (hexDigit n) = '%') := by decide

theorem escLiteral_range {c : Char} (h : escLiteral c = true) :
    42 ≤ c.toNat ∧ c.toNat ≤ 122 := by
  simp only [escLiteral, Bool.or_eq_true, Bool.and_eq_true, decide_eq_true_eq,
    beq_iff_eq] at h
  rcases h with ((((((((h | h) | h) | h) | h) | h) | h) | h) | h) | h
  · omega
  · omega
  · omega
  all_goals (subst h; decide)

theorem jsEscapeChar_range (c : Char) : ∀ b ∈ jsEscapeChar c, 32 ≤ b ∧ b ≤ 127 := by
  intro b hb
  unfold jsEscapeChar at hb
  split at hb
  · rename_i hl
    simp only [List.mem_singleton] at hb
    have := escLiteral_range hl
    omega
  · split at hb
    · rename_i hff
      simp only [List.mem_cons, List.mem_singleton] at hb
      have h1 := hexDigit_range (c.toNat / 16 % 16) (by omega)
      have h2 := hexDigit_range (c.toNat % 16) (by omega)
      rcases hb with rfl | rfl | rfl | h
      · omega
      · omega
      · omega
      · simp at h
    · simp only [List.mem_flatMap] at hb
      obtain ⟨u, -, hu⟩ := hb
      simp only [List.mem_cons, List.mem_singleton] at hu
      have h3 := hexDigit_range (u / 4096 % 16) (by omega)
      have h4 := hexDigit_range (u / 256 % 16) (by omega)
      have h5 := hexDigit_range (u / 16 % 16) (by omega)
      have h6 := hexDigit_range (u % 16) (by omega)
      rcases hu with rfl | rfl | rfl | rfl | rfl | rfl | h
      · omega
      · omega
      · omega
      · omega
      · omega
      · omega
      · simp at h

theorem js_escape_range (s : List Char) : ∀ b ∈ js_escape s, 32 ≤ b ∧ b ≤ 127 := by
  intro b hb
  unfold js_escape at hb
  simp only [List.mem_flatMap] at hb
  obtain ⟨c, -, hc⟩ := hb
  exact jsEscapeChar_range c b hc

theorem jsUnescapeUnits_nil : jsUnescapeUnits [] = [] := by
  simp only [jsUnescapeUnits]

theorem jsUnescapeUnits_cons (c : Char) (rest : List Char) :
    jsUnescapeUnits (c :: rest) =
      if c = '%' then
        if rest.head? = some 'u' then
          decodeHex (rest.drop 1) 4 :: jsUnescapeUnits ((rest.drop 1).drop 4)
        else
          decodeHex rest 2 :: jsUnescapeUnits (rest.drop 2)
      else (c.toNat % 65536) :: jsUnescapeUnits rest := by
  simp only [jsUnescapeUnits]

theorem utf16Lossy_nil : utf16Lossy [] = [] := by
  simp only [utf16Lossy]

theorem utf16Lossy_valid (u : Nat) (rest : List Nat) (h : u < 0xD800 ∨ 0xE000 ≤ u) :
    utf16Lossy (u :: rest) = Char.ofNat u :: utf16Lossy rest := by
  cases rest with
  | nil => rw [utf16Lossy.eq_3, if_pos h]
  | cons v rest2 => rw [utf16Lossy.eq_2, if_pos h]

theorem utf16Lossy_pair (u v : Nat) (rest : List Nat)
    (hu : 0xD800 ≤ u ∧ u < 0xDC00) (hv : 0xDC00 ≤ v ∧ v < 0xE000) :
    utf16Lossy (u :: v :: rest) =
      Char.ofNat (0x10000 + (u - 0xD800) * 0x400 + (v - 0xDC00)) :: utf16Lossy rest := by
  rw [utf16Lossy.eq_2, if_neg (by omega), if_pos (by omega), if_pos hv]

/-- Unescaping one `%uXXXX` group recovers the 16-bit unit. -/
theorem unescape_u_group (u : Nat) (hu : u < 65536) (X : List Char) :
    jsUnescapeUnits
      (([37, 117, hexDigit (u / 4096 % 16), hexDigit (u / 256 % 16),
         hexDigit (u / 16 % 16), hexDigit (u % 16)].map Char.ofNat) ++ X) =
      u :: jsUnescapeUnits X := by
  have h3 := hexVal_hexDigit (u / 4096 % 16) (by omega)
  have h2 := hexVal_hexDigit (u / 256 % 16) (by omega)
  have h1 := hexVal_hexDigit (u / 16 % 16) (by omega)
  have h0 := hexVal_hexDigit (u % 16) (by omega)
  simp only [List.map_cons, List.map_nil, List.cons_append, List.nil_append]
  rw [jsUnescapeUnits_cons, if_pos (by decide : Char.ofNat 37 = '%'),
    if_pos (by rw [List.head?_cons])]
  have hdrop : ((Char.ofNat 117 :: Char.ofNat (hexDigit (u / 4096 % 16)) ::
      Char.ofNat (hexDigit (u / 256 % 16)) :: Char.ofNat (hexDigit (u / 16 % 16)) ::
      Char.ofNat (hexDigit (u % 16)) :: X).drop 1) =
      Char.ofNat (hexDigit (u / 4096 % 16)) :: Char.ofNat (hexDigit (u / 256 % 16)) ::
      Char.ofNat (hexDigit (u / 16 % 16)) :: Char.ofNat (hexDigit (u % 16)) :: X := rfl
  rw [hdrop]
  have htake : (Char.ofNat (hexDigit (u / 4096 % 16)) :: Char.ofNat (hexDigit (u / 256 % 16)) ::
      Char.ofNat (hexDigit (u / 16 % 16)) :: Char.ofNat (hexDigit (u % 16)) :: X).take 4 =
      [Char.ofNat (hexDigit (u / 4096 % 16)), Char.ofNat (hexDigit (u / 256 % 16)),
       Char.ofNat (hexDigit (u / 16 % 16)), Char.ofNat (hexDigit (u % 16))] := rfl
  have hdrop4 : (Char.ofNat (hexDigit (u / 4096 % 16)) :: Char.ofNat (hexDigit (u / 256 % 16)) ::
      Char.ofNat (hexDigit (u / 16 % 16)) :: Char.ofNat (hexDigit (u % 16)) :: X).drop 4 = X := rfl
  rw [decodeHex, htake, hdrop4]
  simp only [List.foldl_cons, List.foldl_nil, h3, h2, h1, h0]
  congr 1
  omega

/-- Unescaping the escape of one character prepends its UTF-16 units. -/
theorem jsUnescape_escapeChar (c : Char) (X : List Char) :
    jsUnescapeUnits ((jsEscapeChar c).map Char.ofNat ++ X) =
      encodeUtf16 c ++ jsUnescapeUnits X := by
  unfold jsEscapeChar
  split
  · rename_i hl
    have hr := escLiteral_range hl
    simp only [List.map_cons, List.map_nil, List.cons_append, List.nil_append]
    rw [Char.ofNat_toNat, jsUnescapeUnits_cons,
      if_neg (by rintro rfl; exact absurd hr (by decide))]
    rw [encodeUtf16, if_pos (by omega), Nat.mod_eq_of_lt (by omega)]
    rfl
  · split
    · rename_i hnl hff
      have h1 := hexVal_hexDigit (c.toNat / 16 % 16) (by omega)
      have h0 := hexVal_hexDigit (c.toNat % 16) (by omega)
      simp only [List.map_cons, List.map_nil, List.cons_append, List.nil_append]
      rw [jsUnescapeUnits_cons, if_pos (by decide : Char.ofNat 37 = '%'),
        if_neg (by
          rw [List.head?_cons]
          intro h
          exact absurd (Option.some.inj h) (hexChar_ne_u _ (by omega)))]
      have htake : (Char.ofNat (hexDigit (c.toNat / 16 % 16)) ::
          Char.ofNat (hexDigit (c.toNat % 16)) :: X).take 2 =
          [Char.ofNat (hexDigit (c.toNat / 16 % 16)), Char.ofNat (hexDigit (c.toNat % 16))] := rfl
      have hdrop : (Char.ofNat (hexDigit (c.toNat / 16 % 16)) ::
          Char.ofNat (hexDigit (c.toNat % 16)) :: X).drop 2 = X := rfl
      rw [decodeHex, htake, hdrop]
      simp only [List.foldl_cons, List.foldl_nil, h1, h0]
      rw [encodeUtf16, if_pos (by omega)]
      have e : (0 * 16 + c.toNat / 16 % 16) * 16 + c.toNat % 16 = c.toNat := by omega
      rw [e]
      rfl
    · rename_i hnl hff
      rw [encodeUtf16]
      split
      · rename_i hbmp
        simp only [List.flatMap_cons, List.flatMap_nil, List.append_nil]
        rw [unescape_u_group c.toNat (by omega) X]
        rfl
      · rename_i hsup
        have hlt := char_toNat_lt c
        simp only [List.flatMap_cons, List.flatMap_nil, List.append_nil, List.map_append,
          List.append_assoc]
        rw [unescape_u_group (0xD800 + (c.toNat - 0x10000) / 0x400) (by omega),
          unescape_u_group (0xDC00 + (c.toNat - 0x10000) % 0x400) (by omega)]
        rfl

/-- Unescaping the full escaped string, with an arbitrary suffix. -/
theorem jsUnescapeUnits_escape_aux (s : List Char) (X : List Char) :
    jsUnescapeUnits ((js_escape s).map Char.ofNat ++ X) =
      s.flatMap encodeUtf16 ++ jsUnescapeUnits X := by
  induction s with
  | nil => simp [js_escape]
  | cons c rest ih =>
    simp only [js_escape, List.flatMap_cons, List.map_append, List.append_assoc] at *
    rw [jsUnescape_escapeChar, ih]

theorem jsUnescapeUnits_escape (s : List Char) :
    jsUnescapeUnits ((js_escape s).map Char.ofNat) = s.flatMap encodeUtf16 := by
  have h := jsUnescapeUnits_escape_aux s []
  simpa [jsUnescapeUnits_nil] using h

/-- Lossy UTF-16 decoding undoes `encodeUtf16`, one character at a time. -/
theorem utf16Lossy_encodeUtf16 (c : Char) (us : List Nat) :
    utf16Lossy (encodeUtf16 c ++ us) = c :: utf16Lossy us := by
  rw [encodeUtf16]
  split
  · rename_i h
    have hv := char_valid_range c
    simp only [List.cons_append, List.nil_append]
    rw [utf16Lossy_valid _ _ (by omega), Char.ofNat_toNat]
  · rename_i h
    have hlt := char_toNat_lt c
    simp only [List.cons_append, List.nil_append]
    rw [utf16Lossy_pair _ _ _ (by omega) (by omega)]
    have e : 0x10000 + (0xD800 + (c.toNat - 0x10000) / 0x400 - 0xD800) * 0x400 +
        (0xDC00 + (c.toNat - 0x10000) % 0x400 - 0xDC00) = c.toNat := by omega
    rw [e, Char.ofNat_toNat]

theorem utf16Lossy_flatMap (s : List Char) :
    utf16Lossy (s.flatMap encodeUtf16) = s := by
  induction s with
  | nil => simpa using utf16Lossy_nil
  | cons c rest ih => rw [List.flatMap_cons, utf16Lossy_encodeUtf16, ih]

/-- `js_unescape` inverts `js_escape` (on the escaped bytes seen as chars). -/
theorem js_unescape_escape (s : List Char) :
    js_unescape ((js_escape s).map Char.ofNat) = s := by
  rw [js_unescape, jsUnescapeUnits_escape, utf16Lossy_flatMap]

/-- The base-96 packed value of a chunk is bounded by 96^length. -/
theorem foldr96_lt : ∀ (chunk : List Nat),
    (∀ b ∈ chunk, 32 ≤ b ∧ b ≤ 127) →
    chunk.foldr (fun b acc => acc * 96 + (b - 0x20)) 0 < 96 ^ chunk.length := by
  intro chunk
  induction chunk with
  | nil => intro h; simp
  | cons b rest ih =>
    intro h
    simp only [List.foldr_cons, List.length_cons, pow_succ]
    have hb := h b (by simp)
    have hr := ih (fun x hx => h x (List.mem_cons_of_mem _ hx))
    have h1 := Nat.mul_le_mul (Nat.succ_le_of_lt hr) (Nat.le_refl 96)
    omega

/-- Unpacking the base-96 value of a chunk recovers its characters. -/
theorem extract_pack : ∀ (chunk : List Nat),
    (∀ b ∈ chunk, 32 ≤ b ∧ b ≤ 127) →
    extractChars (chunk.foldr (fun b acc => acc * 96 + (b - 0x20)) 0) chunk.length =
      chunk.map Char.ofNat := by
  intro chunk
  induction chunk with
  | nil => intro h; rfl
  | cons b rest ih =>
    intro h
    have hb := h b (by simp)
    have hr := ih (fun x hx => h x (List.mem_cons_of_mem _ hx))
    simp only [List.foldr_cons, List.length_cons, List.map_cons, extractChars]
    have e1 : (rest.foldr (fun b acc => acc * 96 + (b - 0x20)) 0 * 96 + (b - 0x20)) % 96
        + 32 = b := by omega
    have e2 : (rest.foldr (fun b acc => acc * 96 + (b - 0x20)) 0 * 96 + (b - 0x20)) / 96
        = rest.foldr (fun b acc => acc * 96 + (b - 0x20)) 0 := by omega
    rw [e1, e2, hr]

/-- The comment loop parses the packed chunks of an escaped byte string back
into its characters. -/
theorem parseCommentGo_chunks : ∀ (escaped : List Nat) (X : List Nat) (acc : List Char),
    (∀ b ∈ escaped, 32 ≤ b ∧ b ≤ 127) →
    parseCommentGo (((chunks4 escaped).flatMap packChunk ++ X).map byteDigit)
      escaped.length acc =
      .ok (acc ++ escaped.map Char.ofNat, X.map byteDigit) := by
  intro escaped
  induction escaped using chunks4.induct with
  | case1 =>
    intro X acc h
    simp only [chunks4, List.flatMap_nil, List.nil_append, List.length_nil]
    rw [parseCommentGo]
    simp
  | case2 a rest ih =>
    intro X acc h
    have hchunk : ∀ b ∈ a :: rest.take 3, 32 ≤ b ∧ b ≤ 127 := by
      intro b hb
      rcases List.mem_cons.mp hb with rfl | hb
      · exact h b (by simp)
      · exact h b (List.mem_cons_of_mem _ (List.take_subset _ _ hb))
    have hsub : ∀ b ∈ rest.drop 3, 32 ≤ b ∧ b ≤ 127 :=
      fun b hb => h b (List.mem_cons_of_mem _ (List.drop_subset _ _ hb))
    have hlen : (a :: rest.take 3).length ≤ 4 := by
      simp only [List.length_cons, List.length_take]
      omega
    have hval : (a :: rest.take 3).foldr (fun b acc => acc * 96 + (b - 0x20)) 0
        < 1073741824 := by
      have h1 := foldr96_lt _ hchunk
      have h2 : (96:Nat) ^ (a :: rest.take 3).length ≤ 84934656 := by
        calc (96:Nat) ^ (a :: rest.take 3).length ≤ 96 ^ 4 :=
              Nat.pow_le_pow_right (by norm_num) hlen
          _ = 84934656 := by norm_num
      omega
    simp only [chunks4, List.flatMap_cons, List.append_assoc, List.length_cons]
    rw [parseCommentGo, if_neg (by omega), packChunk, parse5_pushNum hval]
    simp only
    have hminlen : min (rest.length + 1) 4 = (a :: rest.take 3).length := by
      simp only [List.length_cons, List.length_take]
      omega
    rw [hminlen, extract_pack _ hchunk]
    have hrem : rest.length + 1 - (a :: rest.take 3).length = (rest.drop 3).length := by
      simp only [List.length_cons, List.length_take, List.length_drop]
      omega
    rw [hrem, ih _ _ hsub]
    have hjoin : (a :: rest.take 3).map (Char.ofNat) ++ (rest.drop 3).map (Char.ofNat) =
        (a :: rest).map (Char.ofNat) := by
      rw [← List.map_append]
      simp only [List.cons_append, List.take_append_drop]
    rw [List.append_assoc, hjoin]

/-- Decoding the encoder's comment bytes recovers the escaped characters, when
the escaped form fits in the 4095-byte limit. -/
theorem decodeCommentPart_commentBytes (c : List Char) (X : List Nat)
    (hlen : (js_escape c).length ≤ 4095) :
    decodeCommentPart ((commentBytes c ++ X).map byteDigit) =
      .ok ((js_escape c).map Char.ofNat, X.map byteDigit) := by
  have htake : (js_escape c).take 4095 = js_escape c := List.take_of_length_le hlen
  rw [decodeCommentPart]
  simp only [commentBytes, htake, List.append_assoc]
  rw [parse2_pushNum (by omega)]
  simp only
  have h := parseCommentGo_chunks (js_escape c) X [] (js_escape_range c)
  simpa using h

/-- The three piece subfields of a valid piece's packed number. -/
theorem piece_subfields {pc : Piece} (hv : pc.valid = true) :
    pc.fumen_number % 8 = pc.kind.num ∧
    pc.fumen_number / 8 % 4 = pc.rotation.num ∧
    pc.fumen_number / 32 = pc.fumen_pos := by
  have hk := pc.kind.num_bounds
  have hr := pc.rotation.num_le
  have hp := Piece.fumen_pos_le hv
  unfold Piece.fumen_number
  refine ⟨?_, ?_, ?_⟩ <;> omega

/-- The decoder recovers the page's piece from the header-word subfields. -/
theorem decodePieceCore_page {p : Page} (g first : Bool) (hwf : p.wf = true) :
    decodePieceCore (pageFlagsWord g first p % 8) (pageFlagsWord g first p / 8 % 4)
      (pageFlagsWord g first p / 32 % 240) = .ok p.piece := by
  obtain ⟨e1, e2, e3, -⟩ := pageFlagsWord_extract g first hwf
  have hpv : (match p.piece with
      | some pc => pc.valid
      | none => true) = true := by
    simp only [Page.wf, Bool.and_eq_true] at hwf
    exact hwf.1.2
  cases hpp : p.piece with
  | none =>
    rw [hpp] at e1
    simp only [Nat.zero_mod] at e1
    rw [e1, decodePieceCore, if_pos rfl]
  | some pc =>
    rw [hpp] at e1 e2 e3 hpv
    simp only [] at e1 e2 e3
    obtain ⟨s1, s2, s3⟩ := piece_subfields hpv
    have hk := pc.kind.num_bounds
    have a1 : pageFlagsWord g first p % 8 = pc.kind.num := by omega
    have a2 : pageFlagsWord g first p / 8 % 4 = pc.rotation.num := by omega
    have a3 : pageFlagsWord g first p / 32 % 240 = pc.fumen_pos := by
      have hp := Piece.fumen_pos_le hpv
      omega
    rw [a1, a2, a3]
    exact decodePieceCore_roundtrip pc hpv

/-- Decoding the encoder's page tail recovers the page's piece, flags and
comment, given the field and garbage row already patched in. -/
theorem decodePageData_pageTail (p : Page) (g first : Bool) (hwf : p.wf = true)
    (page1 : Page) (hf : page1.field = p.field) (hg : page1.garbage_row = p.garbage_row)
    (hc : page1.comment = none)
    (ef1 : Nat) (X : List Nat) :
    decodePageData ((pageTail g first p ++ X).map byteDigit) page1 ef1 =
      .ok (p, first && g, ef1, X.map byteDigit) := by
  have hpiece := decodePieceCore_page g first hwf
  obtain ⟨-, -, -, e4⟩ := pageFlagsWord_extract g first hwf
  have hb := flags_bits_extract p.rise p.mirror p.comment.isSome (!p.lock) (first && g)
  simp only [flagBits] at e4
  have hcm : (match p.comment with
      | some c => decide ((js_escape c).length ≤ 4095)
      | none => true) = true := by
    simp only [Page.wf, Bool.and_eq_true] at hwf
    exact hwf.2
  rw [decodePageData, pageTail]
  cases hpc : p.comment with
  | none =>
    simp only [List.append_nil, List.nil_append]
    rw [parse3_pushNum (pageFlagsWord_lt g first hwf)]
    simp only [hpiece, e4]
    rw [hb.1, hb.2.1, hb.2.2.1, hb.2.2.2.1, hb.2.2.2.2, hpc]
    simp only [Option.isSome_none, Bool.not_not]
    rw [if_neg (by simp)]
    obtain ⟨pp, pf, pg, pr, pm, pl, pcm⟩ := p
    obtain ⟨qp, qf, qg, qr, qm, ql, qcm⟩ := page1
    simp only [] at hf hg hc hpc
    subst hf hg hc hpc
    rfl
  | some cm =>
    rw [hpc] at hcm
    simp only [decide_eq_true_eq] at hcm
    simp only [List.append_assoc]
    rw [parse3_pushNum (pageFlagsWord_lt g first hwf)]
    simp only [hpiece, e4]
    rw [hb.1, hb.2.1, hb.2.2.1, hb.2.2.2.1, hb.2.2.2.2, hpc]
    simp only [Option.isSome_some, Bool.not_not]
    rw [if_pos trivial]
    rw [decodeCommentPart_commentBytes cm X hcm]
    simp only [js_unescape_escape]
    obtain ⟨pp, pf, pg, pr, pm, pl, pcm⟩ := p
    obtain ⟨qp, qf, qg, qr, qm, ql, qcm⟩ := page1
    simp only [] at hf hg hc hpc
    subst hf hg hc hpc
    rfl

/-- Writing one piece cell keeps the 23×10 field shape. -/
theorem setCell_shape {field : List (List CellColor)} (x y : Int) (c : CellColor)
    (hl : field.length = 23) (hr : ∀ r ∈ field, r.length = 10) :
    (setCell field x y c).length = 23 ∧ (∀ r ∈ setCell field x y c, r.length = 10) := by
  unfold setCell
  split
  · by_cases hy : y.toNat < field.length
    · refine ⟨by simp [hl], ?_⟩
      intro r hrm
      rcases List.mem_or_eq_of_mem_set hrm with hrm | rfl
      · exact hr r hrm
      · rw [List.length_set, List.getD_eq_getElem _ _ hy]
        exact hr _ (List.getElem_mem hy)
    · rw [List.set_eq_of_length_le (by omega)]
      exact ⟨hl, hr⟩
  · exact ⟨hl, hr⟩

/-- Placing a whole piece keeps the 23×10 field shape. -/
theorem foldl_setCell_shape (cells : List (Int × Int)) (col : CellColor) :
    ∀ (field : List (List CellColor)), field.length = 23 →
    (∀ r ∈ field, r.length = 10) →
    (cells.foldl (fun f c => setCell f c.1 c.2 col) field).length = 23 ∧
    (∀ r ∈ cells.foldl (fun f c => setCell f c.1 c.2 col) field, r.length = 10) := by
  induction cells with
  | nil => intro field hl hr; exact ⟨hl, hr⟩
  | cons cell cells ih =>
    intro field hl hr
    simp only [List.foldl_cons]
    obtain ⟨h1, h2⟩ := setCell_shape cell.1 cell.2 col hl hr
    exact ih _ h1 h2

/-- Line clearing keeps the 23×10 field shape. -/
theorem lineClear_shape {field : List (List CellColor)} (hl : field.length = 23)
    (hr : ∀ r ∈ field, r.length = 10) :
    (lineClear field).length = 23 ∧ (∀ r ∈ lineClear field, r.length = 10) := by
  unfold lineClear
  have hkl := List.length_filter_le (fun r => !rowFull r) field
  constructor
  · simp only [List.length_append, List.length_replicate]
    omega
  · intro r hrm
    rcases List.mem_append.mp hrm with hrm | hrm
    · exact hr r (List.mem_filter.mp hrm).1
    · rw [List.eq_of_mem_replicate hrm]
      rfl

/-- `Page::next_page` keeps the page shape. -/
theorem next_page_shapeOk {p : Page} (h : p.shapeOk = true) :
    p.next_page.shapeOk = true := by
  obtain ⟨h1, h2, h3⟩ := shapeOk_parts h
  have hplace : ((match p.piece with
      | some piece =>
        if p.lock then
          piece.cells.foldl
            (fun f (c : Int × Int) => setCell f c.1 c.2 (cellColorOfPieceType piece.kind))
            p.field
        else p.field
      | none => p.field) : List (List CellColor)).length = 23 ∧
      (∀ r ∈ (match p.piece with
      | some piece =>
        if p.lock then
          piece.cells.foldl
            (fun f (c : Int × Int) => setCell f c.1 c.2 (cellColorOfPieceType piece.kind))
            p.field
        else p.field
      | none => p.field : List (List CellColor)), r.length = 10) := by
    cases hpp : p.piece with
    | none => exact ⟨h1, h2⟩
    | some pc =>
      simp only []
      cases hlock : p.lock with
      | true =>
        rw [if_pos rfl]
        exact foldl_setCell_shape pc.cells _ p.field h1 h2
      | false =>
        rw [if_neg (by simp)]
        exact ⟨h1, h2⟩
  obtain ⟨hP1, hP2⟩ := hplace
  unfold Page.next_page Page.shapeOk
  simp only [Bool.and_eq_true, beq_iff_eq, List.all_eq_true]
  generalize hF : (match p.piece with
      | some piece =>
        if p.lock then
          piece.cells.foldl
            (fun f (c : Int × Int) => setCell f c.1 c.2 (cellColorOfPieceType piece.kind))
            p.field
        else p.field
      | none => p.field : List (List CellColor)) = F at hP1 hP2 ⊢
  obtain ⟨hC1, hC2⟩ := lineClear_shape hP1 hP2
  cases hrise : p.rise <;> cases hmir : p.mirror <;>
    simp only [if_true, if_false, Bool.false_eq_true, ite_true, ite_false] <;>
    refine ⟨⟨?_, ?_⟩, ?_⟩
  · exact hC1
  · exact hC2
  · exact h3
  · simp only [List.length_map]
    exact hC1
  · intro r hrm
    simp only [List.mem_map] at hrm
    obtain ⟨q, hq, rfl⟩ := hrm
    simp only [List.length_reverse]
    exact hC2 q hq
  · exact h3
  · simp only [List.length_cons, List.length_take]
    omega
  · intro r hrm
    rcases List.mem_cons.mp hrm with rfl | hrm
    · exact h3
    · exact hC2 r (List.take_subset _ _ hrm)
  · rfl
  · simp only [List.length_map, List.length_cons, List.length_take]
    omega
  · intro r hrm
    simp only [List.mem_map] at hrm
    obtain ⟨q, hq, rfl⟩ := hrm
    rcases List.mem_cons.mp hq with rfl | hq
    · simp [h3]
    · simp only [List.length_reverse]
      exact hC2 q (List.take_subset _ _ hq)
  · rfl

theorem Page.default_shapeOk : Page.default.shapeOk = true := by decide

theorem Page.wf_shapeOk {p : Page} (h : p.wf = true) : p.shapeOk = true := by
  simp only [Page.wf, Bool.and_eq_true] at h
  exact h.1.1

/-- `newPage` never carries a comment. -/
theorem newPage_comment (f : Fumen) : f.newPage.comment = none := by
  unfold Fumen.newPage
  cases f.pages.getLast? with
  | none => rfl
  | some q => rfl

/-- `newPage` of a well-shaped document is well-shaped. -/
theorem newPage_shapeOk (f : Fumen) (h : ∀ q ∈ f.pages, q.shapeOk = true) :
    f.newPage.shapeOk = true := by
  unfold Fumen.newPage
  cases hl : f.pages.getLast? with
  | none => exact Page.default_shapeOk
  | some q => exact next_page_shapeOk (h q (List.mem_of_mem_getLast? hl))

/-- The page the decoder mutates is the freshly appended `newPage`. -/
theorem add_page_last (f : Fumen) :
    (f.add_page).pages.getLast?.getD Page.default = f.newPage := by
  unfold Fumen.add_page
  simp [List.getLast?_concat]

/-- Overwriting the freshly appended page. -/
theorem add_page_setLast (f : Fumen) (p : Page) :
    (f.add_page).setLast p = { f with pages := f.pages ++ [p] } := by
  unfold Fumen.add_page Fumen.setLast
  simp [List.dropLast_concat]

/-- The baseline page after a page has been appended. -/
theorem newPage_concat (A : List Page) (p : Page) (gg : Bool) :
    ({ pages := A ++ [p], guideline := gg } : Fumen).newPage = p.next_page := by
  unfold Fumen.newPage
  simp [List.getLast?_concat]

set_option maxRecDepth 8192 in
/-- The literal `vh` marker digits run-length decode to the all-8 delta. -/
theorem parseFieldGo_marker (r : List (Option Nat)) :
    parseFieldGo (some 47 :: some 33 :: r) 0 [] = .ok (allEight, r) := by
  have hc := parseFieldGo_complete [(47, 33)] r 0 [] (by decide)
  have hb : groupBytes [(47, 33)] ++ r = some 47 :: some 33 :: r := by rfl
  have hcells : groupCells [(47, 33)] = allEight := by decide
  rw [hb, hcells] at hc
  simpa using hc

theorem rleGo_ne_nil : ∀ (ds : List Nat) (pv c : Nat), rleGo ds pv c ≠ [] := by
  intro ds
  induction ds with
  | nil =>
    intro pv c
    simp [rleGo, pushNum, List.range_succ]
  | cons d rest ih =>
    intro pv c
    unfold rleGo
    split
    · exact ih pv (c + 1)
    · simp [pushNum, List.range_succ]

/-- The final run count never goes below the running count, and stays a
single base-64 digit. -/
theorem encRunGo_count (g : Bool) : ∀ (ps : List Page) (prev : List CellColor) (c : Nat),
    c ≤ 62 → c ≤ (encRunGo g ps prev c).2.1 ∧ (encRunGo g ps prev c).2.1 ≤ 63 := by
  intro ps
  induction ps with
  | nil => intro prev c hc; simp only [encRunGo]; omega
  | cons p ps ih =>
    intro prev c hc
    unfold encRunGo
    split
    · split
      · simp only
        omega
      · rename_i hd hcnt
        have := ih (p.next_page.fumen_field) (c + 1) (by omega)
        simp only
        omega
    · simp only
      omega

theorem decodeGo_nil (fumen : Fumen) (ef : Nat) : decodeGo [] fumen ef = .ok fumen := by
  rw [decodeGo.eq_1]

/-- One successful iteration of the decoder's page loop. -/
theorem decodeGo_step {s : List (Option Nat)} (hne : s ≠ []) {fumen : Fumen} {ef : Nat}
    {page : Page} {g : Bool} {ef2 : Nat} {s2 : List (Option Nat)}
    (h : decodePageStep s ((fumen.add_page).pages.getLast?.getD Page.default) ef
      = .ok (page, g, ef2, s2)) :
    decodeGo s fumen ef = decodeGo s2
      (if ((fumen.add_page).setLast page).pages.length = 1
        then { (fumen.add_page).setLast page with guideline := g }
        else (fumen.add_page).setLast page) ef2 := by
  match s, hne with
  | a :: rest, _ =>
    rw [decodeGo.eq_2]
    split
    · rename_i p2 g2 e2 t2 h2
      rw [h] at h2
      cases h2
      rfl
    · rename_i h2
      rw [h] at h2
      cases h2
    · rename_i h2
      rw [h] at h2
      cases h2

/-- The decoder's field part on the RLE bytes of a changed page's delta. -/
theorem decodeFieldPart_changed {page0 tgt : Page} (h0 : page0.shapeOk = true)
    (ht : tgt.shapeOk = true)
    (hδ : fumen_field_delta page0.fumen_field tgt.fumen_field ≠ allEight)
    (rest : List Nat) :
    decodeFieldPart ((rleBytes (fumen_field_delta page0.fumen_field tgt.fumen_field)
        ++ rest).map byteDigit) page0 0 =
      .ok ({ page0 with field := tgt.field, garbage_row := tgt.garbage_row }, 0,
        rest.map byteDigit) := by
  unfold decodeFieldPart
  rw [if_pos rfl]
  have hlen : (fumen_field_delta page0.fumen_field tgt.fumen_field).length = 240 := by
    rw [fumen_field_delta_length, fumen_field_length h0, fumen_field_length ht]
    omega
  rw [parseFieldGo_rleBytes rest hlen (fumen_field_delta_le _ _)]
  simp only []
  rw [if_neg hδ]
  simp only []
  rw [applyFieldDelta_roundtrip h0 ht]

/-- The decoder's field part while an unchanged-page run is pending. -/
theorem decodeFieldPart_run (page0 : Page) (ef : Nat) (hef : ¬(ef = 0))
    (s : List (Option Nat)) :
    decodeFieldPart s page0 ef = .ok (page0, ef - 1, s) := by
  unfold decodeFieldPart
  rw [if_neg hef]

/-- The decoder's field part on the `vh` marker digits followed by the run
count digit. -/
theorem decodeFieldPart_marker (page0 : Page) (h0 : page0.shapeOk = true)
    (cnt : Nat) (hcnt : cnt < 64) (rest : List Nat) :
    decodeFieldPart (some 47 :: some 33 :: (b64c cnt :: rest).map byteDigit) page0 0 =
      .ok (page0, cnt, rest.map byteDigit) := by
  obtain ⟨h1, h2, h3⟩ := shapeOk_parts h0
  unfold decodeFieldPart
  rw [if_pos rfl, parseFieldGo_marker]
  simp only [if_pos rfl]
  rw [List.map_cons, byteDigit_b64c cnt hcnt]
  simp only [parseDigit]
  rw [applyFieldDelta_all8 h1 h2 h3]
  simp

/-- One full decoder iteration on the bytes the encoder emits for a changed
page. -/
theorem decodePageStep_changed (page0 tgt : Page) (g first : Bool)
    (h0 : page0.shapeOk = true) (ht : tgt.wf = true) (hc : page0.comment = none)
    (hδ : fumen_field_delta page0.fumen_field tgt.fumen_field ≠ allEight)
    (X : List Nat) :
    decodePageStep ((rleBytes (fumen_field_delta page0.fumen_field tgt.fumen_field)
        ++ pageTail g first tgt ++ X).map byteDigit) page0 0 =
      .ok (tgt, first && g, 0, X.map byteDigit) := by
  unfold decodePageStep
  rw [List.append_assoc, decodeFieldPart_changed h0 (Page.wf_shapeOk ht) hδ]
  exact decodePageData_pageTail tgt g first ht
    { page0 with field := tgt.field, garbage_row := tgt.garbage_row } rfl rfl hc 0 X

/-- One full decoder iteration on an unchanged page inside a pending run. -/
theorem decodePageStep_run (page0 q : Page) (g : Bool) (ef : Nat) (hef : ¬(ef = 0))
    (h0 : page0.shapeOk = true) (hq : q.wf = true) (hc : page0.comment = none)
    (hfield : page0.fumen_field = q.fumen_field) (X : List Nat) :
    decodePageStep ((pageTail g false q ++ X).map byteDigit) page0 ef =
      .ok (q, false && g, ef - 1, X.map byteDigit) := by
  obtain ⟨hf, hg⟩ := fumen_field_inj h0 (Page.wf_shapeOk hq) hfield
  unfold decodePageStep
  rw [decodeFieldPart_run page0 ef hef]
  exact decodePageData_pageTail q g false hq page0 hf hg hc (ef - 1) X

/-- One full decoder iteration on the `vh` run marker and the run's first
(unchanged) page. -/
theorem decodePageStep_marker (page0 q : Page) (g first : Bool) (cnt : Nat)
    (hcnt : cnt < 64)
    (h0 : page0.shapeOk = true) (hq : q.wf = true) (hc : page0.comment = none)
    (hfield : page0.fumen_field = q.fumen_field) (X : List Nat) :
    decodePageStep ((118 :: 104 :: b64c cnt :: (pageTail g first q ++ X)).map byteDigit)
        page0 0 =
      .ok (q, first && g, cnt, X.map byteDigit) := by
  obtain ⟨hf, hg⟩ := fumen_field_inj h0 (Page.wf_shapeOk hq) hfield
  unfold decodePageStep
  rw [List.map_cons, List.map_cons, byteDigit_marker_v, byteDigit_marker_h]
  rw [decodeFieldPart_marker page0 h0 cnt hcnt]
  exact decodePageData_pageTail q g first hq page0 hf hg hc cnt X

theorem rleBytes_ne_nil {δ : List Nat} (h : δ.length = 240) : rleBytes δ ≠ [] := by
  match δ, h with
  | d :: ds, _ =>
    unfold rleBytes
    exact rleGo_ne_nil ds d 1

theorem pageTail_ne_nil (g first : Bool) (p : Page) : pageTail g first p ≠ [] := by
  unfold pageTail
  rw [pushNum_three]
  simp

theorem shapes_concat {fumen0 : Fumen} {p : Page}
    (hS : ∀ q ∈ fumen0.pages, q.shapeOk = true) (hp : p.wf = true) :
    ∀ q ∈ fumen0.pages ++ [p], q.shapeOk = true := by
  intro q hq
  rcases List.mem_append.mp hq with hq | hq
  · exact hS q hq
  · simp only [List.mem_singleton] at hq
    subst hq
    exact Page.wf_shapeOk hp

theorem fumen_with_pages (f : Fumen) (A : List Page) :
    ({ f with pages := A } : Fumen) = { pages := A, guideline := f.guideline } := rfl

theorem fumen_set_guideline (A : List Page) (gg g2 : Bool) :
    ({ ({ pages := A, guideline := gg } : Fumen) with guideline := g2 } : Fumen) =
      { pages := A, guideline := g2 } := rfl

theorem map_append_ne_nil {A B : List Nat} (h : ¬(A = [])) :
    ¬((A ++ B).map byteDigit = []) := by
  simp [h]

/-- Joint simulation of `Fumen::decode`'s page loop against the run-structured
encoder view `encR`/`encRunGo`: the decoder consumes the encoder's byte stream
and rebuilds exactly the encoded pages, recovering the guideline flag from the
first page. -/
theorem decodeGo_encR_spec : ∀ (n : Nat) (pages : List Page), pages.length ≤ n →
    (∀ (fumen0 : Fumen) (g first : Bool),
      (∀ q ∈ fumen0.pages, q.shapeOk = true) →
      (∀ q ∈ pages, q.wf = true) →
      first = fumen0.pages.isEmpty →
      (first = false → fumen0.guideline = g) →
      decodeGo ((encR g pages fumen0.newPage.fumen_field first).map byteDigit) fumen0 0
        = .ok { pages := fumen0.pages ++ pages,
                guideline := if pages.isEmpty then fumen0.guideline else g }) ∧
    (∀ (fumen0 : Fumen) (g : Bool) (c : Nat),
      (∀ q ∈ fumen0.pages, q.shapeOk = true) →
      (∀ q ∈ pages, q.wf = true) →
      ¬(fumen0.pages = []) →
      fumen0.guideline = g →
      c ≤ 62 →
      decodeGo (((encRunGo g pages fumen0.newPage.fumen_field c).1
          ++ encR g (encRunGo g pages fumen0.newPage.fumen_field c).2.2.1
               (encRunGo g pages fumen0.newPage.fumen_field c).2.2.2 false).map byteDigit)
        fumen0 ((encRunGo g pages fumen0.newPage.fumen_field c).2.1 - c)
        = .ok { pages := fumen0.pages ++ pages, guideline := g }) := by
  intro n
  induction n with
  | zero =>
    intro pages hlen
    have hnil : pages = [] := List.length_eq_zero.mp (by omega)
    subst hnil
    constructor
    · intro fumen0 g first hS hW hfirst hg
      simp [encR, decodeGo_nil]
    · intro fumen0 g c hS hW hne hg hc
      simp [encRunGo, encR, decodeGo_nil, ← hg]
  | succ m ihm =>
    intro pages hlen
    have hA : ∀ (fumen0 : Fumen) (g first : Bool),
        (∀ q ∈ fumen0.pages, q.shapeOk = true) →
        (∀ q ∈ pages, q.wf = true) →
        first = fumen0.pages.isEmpty →
        (first = false → fumen0.guideline = g) →
        decodeGo ((encR g pages fumen0.newPage.fumen_field first).map byteDigit) fumen0 0
          = .ok { pages := fumen0.pages ++ pages,
                  guideline := if pages.isEmpty then fumen0.guideline else g } := by
      intro fumen0 g first hS hW hfirst hg
      cases pages with
      | nil => simp [encR, decodeGo_nil]
      | cons p ps =>
        have hlen' : ps.length ≤ m := by
          simp only [List.length_cons] at hlen
          omega
        have hp : p.wf = true := hW p (by simp)
        have hW' : ∀ q ∈ ps, q.wf = true := fun q hq => hW q (by simp [hq])
        have h0 : fumen0.newPage.shapeOk = true := newPage_shapeOk fumen0 hS
        have hS' := shapes_concat hS hp
        simp only [encR]
        by_cases hδ : fumen_field_delta fumen0.newPage.fumen_field p.fumen_field = allEight
        · rw [if_pos hδ]
          have hfeq : fumen0.newPage.fumen_field = p.fumen_field :=
            fumen_field_delta_all8 hδ (fumen_field_length h0)
              (fumen_field_length (Page.wf_shapeOk hp))
          have hcnt := encRunGo_count g ps (p.next_page.fumen_field) 0 (by omega)
          rw [List.append_assoc]
          have hstep := decodePageStep_marker fumen0.newPage p g first
            (encRunGo g ps (p.next_page.fumen_field) 0).2.1 (by omega) h0 hp
            (newPage_comment fumen0) hfeq
            ((encRunGo g ps (p.next_page.fumen_field) 0).1 ++
              encR g (encRunGo g ps (p.next_page.fumen_field) 0).2.2.1
                (encRunGo g ps (p.next_page.fumen_field) 0).2.2.2 false)
          rw [decodeGo_step (by simp) (by rw [add_page_last]; exact hstep)]
          rw [add_page_setLast, fumen_with_pages]
          have hrec := (ihm ps hlen').2
            ({ pages := fumen0.pages ++ [p], guideline := g } : Fumen) g 0 hS' hW'
            (by simp) rfl (by omega)
          rw [newPage_concat, Nat.sub_zero] at hrec
          simp only [] at hrec
          by_cases hfe : fumen0.pages = []
          · have hft : first = true := by rw [hfirst, hfe]; rfl
            subst hft
            rw [if_pos (by simp [hfe]), fumen_set_guideline]
            simp only [Bool.true_and]
            rw [hrec]
            simp
          · have hff : first = false := by
              rw [hfirst]
              simp [List.isEmpty_iff, hfe]
            subst hff
            rw [if_neg (by
              simp only [List.length_append, List.length_cons, List.length_nil]
              intro hq
              exact hfe (List.length_eq_zero.mp (by omega)))]
            rw [hg rfl]
            rw [hrec]
            simp
        · rw [if_neg hδ]
          have hδlen : (fumen_field_delta fumen0.newPage.fumen_field p.fumen_field).length
              = 240 := by
            rw [fumen_field_delta_length, fumen_field_length h0,
              fumen_field_length (Page.wf_shapeOk hp)]
            omega
          have hstep := decodePageStep_changed fumen0.newPage p g first
            h0 hp (newPage_comment fumen0) hδ
            (encR g ps (p.next_page.fumen_field) false)
          rw [decodeGo_step
            (map_append_ne_nil (by
              intro hq
              exact rleBytes_ne_nil hδlen (List.append_eq_nil.mp hq).1))
            (by rw [add_page_last]; exact hstep)]
          rw [add_page_setLast, fumen_with_pages]
          have hrec := (ihm ps hlen').1
            ({ pages := fumen0.pages ++ [p], guideline := g } : Fumen) g false hS' hW'
            (by cases fumen0.pages <;> rfl) (fun _ => rfl)
          rw [newPage_concat] at hrec
          simp only [] at hrec
          by_cases hfe : fumen0.pages = []
          · have hft : first = true := by rw [hfirst, hfe]; rfl
            subst hft
            rw [if_pos (by simp [hfe]), fumen_set_guideline]
            simp only [Bool.true_and]
            rw [hrec]
            by_cases hps : ps.isEmpty = true <;> simp [hps]
          · have hff : first = false := by
              rw [hfirst]
              simp [List.isEmpty_iff, hfe]
            subst hff
            rw [if_neg (by
              simp only [List.length_append, List.length_cons, List.length_nil]
              intro hq
              exact hfe (List.length_eq_zero.mp (by omega)))]
            rw [hg rfl]
            rw [hrec]
            by_cases hps : ps.isEmpty = true <;> simp [hps]
    refine ⟨hA, ?_⟩
    intro fumen0 g c hS hW hne hg hc
    cases pages with
    | nil =>
      simp [encRunGo, encR, decodeGo_nil, ← hg]
    | cons p ps =>
      have hlen' : ps.length ≤ m := by
        simp only [List.length_cons] at hlen
        omega
      have hp : p.wf = true := hW p (by simp)
      have hW' : ∀ q ∈ ps, q.wf = true := fun q hq => hW q (by simp [hq])
      have h0 : fumen0.newPage.shapeOk = true := newPage_shapeOk fumen0 hS
      have hS' := shapes_concat hS hp
      by_cases hδ : fumen_field_delta fumen0.newPage.fumen_field p.fumen_field = allEight
      · have hfeq : fumen0.newPage.fumen_field = p.fumen_field :=
          fumen_field_delta_all8 hδ (fumen_field_length h0)
            (fumen_field_length (Page.wf_shapeOk hp))
        by_cases hsat : c + 1 = 63
        · have hE : encRunGo g (p :: ps) fumen0.newPage.fumen_field c
              = (pageTail g false p, 63, ps, p.next_page.fumen_field) := by
            simp only [encRunGo]
            rw [if_pos hδ, if_pos hsat]
          rw [hE]
          simp only []
          have hstep := decodePageStep_run fumen0.newPage p g
            (63 - c) (by omega) h0 hp (newPage_comment fumen0) hfeq
            (encR g ps (p.next_page.fumen_field) false)
          rw [decodeGo_step (map_append_ne_nil (pageTail_ne_nil g false p))
            (by rw [add_page_last]; exact hstep)]
          rw [add_page_setLast, fumen_with_pages]
          rw [if_neg (by
            simp only [List.length_append, List.length_cons, List.length_nil]
            intro hq
            exact hne (List.length_eq_zero.mp (by omega)))]
          rw [hg]
          have hrec := (ihm ps hlen').1
            ({ pages := fumen0.pages ++ [p], guideline := g } : Fumen) g false hS' hW'
            (by cases fumen0.pages <;> rfl) (fun _ => rfl)
          rw [newPage_concat] at hrec
          simp only [] at hrec
          have hef : 63 - c - 1 = 0 := by omega
          rw [hef, hrec]
          by_cases hps : ps.isEmpty = true <;> simp [hps]
        · have hE : encRunGo g (p :: ps) fumen0.newPage.fumen_field c
              = (pageTail g false p ++ (encRunGo g ps (p.next_page.fumen_field) (c + 1)).1,
                 (encRunGo g ps (p.next_page.fumen_field) (c + 1)).2.1,
                 (encRunGo g ps (p.next_page.fumen_field) (c + 1)).2.2.1,
                 (encRunGo g ps (p.next_page.fumen_field) (c + 1)).2.2.2) := by
            simp only [encRunGo]
            rw [if_pos hδ, if_neg hsat]
          rw [hE]
          simp only []
          have hcnt' := encRunGo_count g ps (p.next_page.fumen_field) (c + 1) (by omega)
          rw [List.append_assoc]
          have hstep := decodePageStep_run fumen0.newPage p g
            ((encRunGo g ps (p.next_page.fumen_field) (c + 1)).2.1 - c) (by omega)
            h0 hp (newPage_comment fumen0) hfeq
            ((encRunGo g ps (p.next_page.fumen_field) (c + 1)).1 ++
              encR g (encRunGo g ps (p.next_page.fumen_field) (c + 1)).2.2.1
                (encRunGo g ps (p.next_page.fumen_field) (c + 1)).2.2.2 false)
          rw [decodeGo_step (map_append_ne_nil (pageTail_ne_nil g false p))
            (by rw [add_page_last]; exact hstep)]
          rw [add_page_setLast, fumen_with_pages]
          rw [if_neg (by
            simp only [List.length_append, List.length_cons, List.length_nil]
            intro hq
            exact hne (List.length_eq_zero.mp (by omega)))]
          rw [hg]
          have hrec := (ihm ps hlen').2
            ({ pages := fumen0.pages ++ [p], guideline := g } : Fumen) g (c + 1) hS' hW'
            (by simp) rfl (by omega)
          rw [newPage_concat] at hrec
          simp only [] at hrec
          have hef : (encRunGo g ps (p.next_page.fumen_field) (c + 1)).2.1 - c - 1
              = (encRunGo g ps (p.next_page.fumen_field) (c + 1)).2.1 - (c + 1) := by
            omega
          rw [hef, hrec]
          simp
      · have hE : encRunGo g (p :: ps) fumen0.newPage.fumen_field c
            = ([], c, p :: ps, fumen0.newPage.fumen_field) := by
          simp only [encRunGo]
          rw [if_neg hδ]
        rw [hE]
        simp only []
        rw [List.nil_append, Nat.sub_self]
        exact (hA fumen0 g false hS hW (by
            cases hfp : fumen0.pages with
            | nil => exact absurd hfp hne
            | cons a as => rfl) (fun _ => hg)).trans (by
          simp [List.isEmpty_cons])

/-- Decoding the encoder's comment bytes in general: the decoder sees only the
first 4095 escaped bytes (the encoder's `length` field and packed chunks both
truncate there). -/
theorem decodeCommentPart_commentBytes_trunc (c : List Char) (X : List Nat) :
    decodeCommentPart ((commentBytes c ++ X).map byteDigit) =
      .ok (((js_escape c).take 4095).map Char.ofNat, X.map byteDigit) := by
  rw [decodeCommentPart]
  simp only [commentBytes, List.append_assoc]
  rw [parse2_pushNum (by
    have := List.length_take 4095 (js_escape c)
    omega)]
  simp only
  have h := parseCommentGo_chunks ((js_escape c).take 4095) X []
    (fun b hb => js_escape_range c b (List.take_subset _ _ hb))
  simpa using h

/-- Escaping a string of `a`s is the identity on bytes. -/
theorem js_escape_replicate_a : ∀ n : Nat,
    js_escape (List.replicate n 'a') = List.replicate n 97 := by
  intro n
  induction n with
  | zero => rfl
  | succ k ih =>
    simp only [List.replicate_succ, js_escape, List.flatMap_cons] at ih ⊢
    rw [show jsEscapeChar 'a' = [97] from by decide, ih]
    rfl

/-- Peeling the `"v115@"` header off a decode of encoder output. -/
theorem decode_header (body : List Nat) :
    Fumen.decode ((headerBytes ++ body).map Char.ofNat)
      = decodeGo (body.map byteDigit) Fumen.default 0 := by
  rw [List.map_append]
  rw [show headerBytes.map Char.ofNat = ['v', '1', '1', '5', '@'] from rfl]
  unfold Fumen.decode
  rw [if_neg (by
    simp only [List.length_append, List.length_cons, List.length_nil]
    omega)]
  rw [if_neg (by
    rw [show (['v', '1', '1', '5', '@'] ++ body.map Char.ofNat).take 5
        = ['v', '1', '1', '5', '@'] from rfl]
    simp)]
  rw [show (['v', '1', '1', '5', '@'] ++ body.map Char.ofNat).drop 5
      = body.map Char.ofNat from rfl]
  rw [List.map_map]
  rfl

set_option maxRecDepth 8192 in
/-- C1 (amended): for every structurally valid document — well-shaped pages,
valid piece placements, comments whose `js_escape`d form fits the encoder's
4095-byte length field, and (for the empty document only) the guideline flag
left at its default `true` — decoding the encoding yields the document back.
The original claim fails for longer comments (see the counterexample) because
the encoder silently truncates the escaped comment at 4095 bytes. -/
theorem roundtrip_c1 (f : Fumen) (hwf : f.wf = true)
    (hdg : f.pages = [] → f.guideline = true) :
    Fumen.decode (f.encode.map Char.ofNat) = .ok f := by
  obtain ⟨fpages, fguide⟩ := f
  have hpwf : ∀ q ∈ fpages, q.wf = true := by
    simp only [Fumen.wf, List.all_eq_true] at hwf
    exact hwf
  rw [encode_eq_encR, decode_header]
  simp only []
  rw [show List.replicate 240 CellColor.Empty = Fumen.default.newPage.fumen_field from rfl]
  rw [(decodeGo_encR_spec fpages.length fpages (le_refl _)).1 Fumen.default fguide true
    (by simp [Fumen.default]) hpwf rfl (fun h => nomatch h)]
  cases fpages with
  | nil =>
    have hg2 : fguide = true := hdg rfl
    rw [hg2]
    rfl
  | cons p ps =>
    simp [Fumen.default]

set_option maxRecDepth 8192 in
/-- C1 witness: a one-page document (default page, guideline off) survives the
round trip. -/
theorem roundtrip_c1_witness :
    Fumen.decode ((Fumen.encode { pages := [Page.default], guideline := false }).map
        Char.ofNat)
      = .ok { pages := [Page.default], guideline := false } :=
  roundtrip_c1 { pages := [Page.default], guideline := false } (by decide)
    (fun h => nomatch h)


/-- Decoding the encoder's page tail when the comment's escaped form exceeds
the 4095-byte length field: the decoded page carries the comment rebuilt from
only the first 4095 escaped bytes. -/
theorem decodePageData_pageTail_trunc (p : Page) (g first : Bool)
    (hsh : p.shapeOk = true)
    (hpv : (match p.piece with
      | some pc => pc.valid
      | none => true) = true)
    (page1 : Page) (hf : page1.field = p.field) (hg : page1.garbage_row = p.garbage_row)
    (hc : page1.comment = none) (cm : List Char) (hpc : p.comment = some cm)
    (ef1 : Nat) (X : List Nat) :
    decodePageData ((pageTail g first p ++ X).map byteDigit) page1 ef1 =
      .ok ({ p with comment := some (js_unescape (((js_escape cm).take 4095).map Char.ofNat)) },
        first && g, ef1, X.map byteDigit) := by
  have hqwf : ({ p with comment := some [] } : Page).wf = true := by
    simp only [Page.wf, Bool.and_eq_true]
    exact ⟨⟨hsh, hpv⟩, by simp [js_escape]⟩
  have hqw : pageFlagsWord g first p = pageFlagsWord g first { p with comment := some [] } := by
    simp [pageFlagsWord, Page.fumen_number, hpc]
  have hpiece := decodePieceCore_page g first hqwf
  obtain ⟨-, -, -, e4⟩ := pageFlagsWord_extract g first hqwf
  have hb := flags_bits_extract p.rise p.mirror true (!p.lock) (first && g)
  simp only [flagBits, Option.isSome_some] at e4
  simp only [] at e4 hpiece
  rw [decodePageData, pageTail]
  rw [hpc]
  simp only [List.append_assoc]
  rw [hqw, parse3_pushNum (pageFlagsWord_lt g first hqwf)]
  simp only [hpiece, e4]
  rw [hb.1, hb.2.1, hb.2.2.1, hb.2.2.2.1, hb.2.2.2.2]
  simp only [Bool.not_not]
  rw [if_pos trivial]
  rw [decodeCommentPart_commentBytes_trunc cm X]
  obtain ⟨pp, pf, pg2, pr, pm, pl, pcm⟩ := p
  obtain ⟨qp, qf, qg, qr, qm, ql, qcm⟩ := page1
  simp only [] at hf hg hc hpc
  subst hf hg hc hpc
  rfl
set_option maxRecDepth 8192 in
/-- Encode-then-decode of a one-page document whose page carries an arbitrary
comment: the decoder reassembles the comment from only the first 4095 escaped
bytes. -/
theorem decode_encode_comment (cm : List Char) :
    Fumen.decode ((Fumen.encode
        { pages := [{ Page.default with comment := some cm }], guideline := true }).map
          Char.ofNat)
      = .ok { pages := [{ Page.default with comment := some (js_unescape (((js_escape cm).take 4095).map Char.ofNat)) }], guideline := true } := by
  have hδ : fumen_field_delta (List.replicate 240 CellColor.Empty)
      ({ Page.default with comment := some cm } : Page).fumen_field = allEight := by
    rw [show ({ Page.default with comment := some cm } : Page).fumen_field
        = List.replicate 240 CellColor.Empty from rfl]
    rw [fumen_field_delta_self]
    rfl
  have hE : encR true [{ Page.default with comment := some cm }]
      (List.replicate 240 CellColor.Empty) true
      = 118 :: 104 :: b64c 0 ::
          pageTail true true { Page.default with comment := some cm } := by
    simp only [encR, encRunGo]
    rw [if_pos hδ]
    simp
  have hpd0 := decodePageData_pageTail_trunc { Page.default with comment := some cm }
    true true (Page.default_shapeOk) rfl Page.default rfl rfl rfl cm rfl 0 []
  rw [List.append_nil] at hpd0
  have hpd : decodePageData
        ((pageTail true true { Page.default with comment := some cm }).map byteDigit)
        Page.default 0
      = .ok ({ Page.default with comment := some (js_unescape (((js_escape cm).take 4095).map Char.ofNat)) }, true, 0, []) := by
    rw [hpd0]
    rfl
  have hfield := decodeFieldPart_marker Page.default Page.default_shapeOk 0
    (by omega) (pageTail true true { Page.default with comment := some cm })
  have hstep : decodePageStep
        ((118 :: 104 :: b64c 0 ::
          pageTail true true { Page.default with comment := some cm }).map byteDigit)
        Page.default 0
      = .ok ({ Page.default with comment := some (js_unescape (((js_escape cm).take 4095).map Char.ofNat)) }, true, 0, []) := by
    unfold decodePageStep
    rw [List.map_cons, List.map_cons, byteDigit_marker_v, byteDigit_marker_h, hfield]
    simp only []
    exact hpd
  rw [encode_eq_encR]
  simp only []
  rw [decode_header, hE]
  rw [decodeGo_step (by simp) (by rw [add_page_last]; exact hstep)]
  rw [add_page_setLast, fumen_with_pages]
  rw [if_pos (by rfl)]
  rw [fumen_set_guideline, decodeGo_nil]
  rfl

set_option maxRecDepth 8192 in
/-- C1 counterexample: a page whose comment escapes to 4096 bytes (4096 `a`s)
does not survive the round trip — the encoder truncates the escaped comment at
4095 bytes, so the decoder returns the 4095-character comment instead. -/
theorem roundtrip_c1_counterexample :
    Fumen.decode ((Fumen.encode { pages := [{ Page.default with comment := some (List.replicate 4096 'a') }], guideline := true }).map Char.ofNat)
      ≠ .ok { pages := [{ Page.default with comment := some (List.replicate 4096 'a') }], guideline := true } := by
  rw [decode_encode_comment]
  intro h
  have e2 := congrArg Fumen.pages (Res.ok.inj h)
  have e4 := congrArg Page.comment (List.cons.inj e2).1
  have h3 : js_unescape (((js_escape (List.replicate 4096 'a')).take 4095).map Char.ofNat)
      = List.replicate 4096 'a' := Option.some.inj e4
  have h4 : (js_escape (List.replicate 4096 'a')).take 4095
      = js_escape (List.replicate 4095 'a') := by
    rw [js_escape_replicate_a, js_escape_replicate_a, List.take_replicate]
    norm_num
  rw [h4, js_unescape_escape] at h3
  have h5 := congrArg List.length h3
  rw [List.length_replicate, List.length_replicate] at h5
  omega

set_option maxRecDepth 8192 in
theorem next_page_default : Page.default.next_page = Page.default := rfl

set_option maxRecDepth 8192 in
theorem delta_empty_default :
    fumen_field_delta (List.replicate 240 CellColor.Empty) Page.default.fumen_field
      = allEight := by
  rw [show Page.default.fumen_field = List.replicate 240 CellColor.Empty from rfl]
  rw [fumen_field_delta_self]
  rfl

set_option maxRecDepth 8192 in
theorem delta_default_default :
    fumen_field_delta Page.default.fumen_field Page.default.fumen_field = allEight := by
  rw [fumen_field_delta_self, fumen_field_length Page.default_shapeOk]
  rfl

/-- The run loop over a block of default pages: the count grows by one per
page and saturates at 63, where the run closes leaving the rest of the block
unconsumed. -/
theorem encRunGo_replicate_default (g : Bool) : ∀ (m c : Nat), c ≤ 62 →
    encRunGo g (List.replicate m Page.default) Page.default.fumen_field c
      = if m + c ≤ 63 then
          ((List.replicate m (pageTail g false Page.default)).flatten, c + m,
            ([] : List Page), Page.default.fumen_field)
        else
          ((List.replicate (63 - c) (pageTail g false Page.default)).flatten, 63,
            List.replicate (m - (63 - c)) Page.default, Page.default.fumen_field) := by
  intro m
  induction m with
  | zero =>
    intro c hc
    rw [if_pos (by omega)]
    simp [encRunGo]
  | succ k ih =>
    intro c hc
    rw [List.replicate_succ]
    simp only [encRunGo]
    rw [if_pos delta_default_default, next_page_default]
    by_cases hsat : c + 1 = 63
    · rw [if_pos hsat]
      cases k with
      | zero =>
        rw [if_pos (by omega)]
        have hcc : c + 1 = 63 := hsat
        rw [hcc]
        simp
      | succ j =>
        have hng : ¬(j + 1 + 1 + c ≤ 63) := by omega
        rw [if_neg hng]
        have h2 : j + 1 + 1 - (63 - c) = j + 1 := by omega
        have h1 : 63 - c = 1 := by omega
        rw [h2, h1]
        simp
    · rw [if_neg hsat]
      rw [ih (c + 1) (by omega)]
      by_cases hend : k + (c + 1) ≤ 63
      · have hok : k + 1 + c ≤ 63 := by omega
        rw [if_pos hend, if_pos hok]
        have hcc : c + 1 + k = c + (k + 1) := by omega
        rw [hcc, List.replicate_succ, List.flatten_cons]
      · have hng : ¬(k + 1 + c ≤ 63) := by omega
        rw [if_neg hend, if_neg hng]
        simp only []
        have h2 : k + 1 - (63 - c) = k - (63 - (c + 1)) := by omega
        have h1 : 63 - c = (63 - (c + 1)) + 1 := by omega
        rw [h2, h1, List.replicate_succ, List.flatten_cons]

/-- A block of `n + 1` default pages (all unchanged) encodes as a single
`vh` marker whose count digit is `n`, for `n ≤ 63` (so up to 64 pages share
one marker). -/
theorem encR_replicate_default (g first : Bool) (n : Nat) (hn : n ≤ 63) :
    encR g (List.replicate (n + 1) Page.default) Page.default.fumen_field first
      = 118 :: 104 :: b64c n :: (pageTail g first Page.default
          ++ (List.replicate n (pageTail g false Page.default)).flatten) := by
  rw [List.replicate_succ]
  simp only [encR]
  rw [if_pos delta_default_default, next_page_default]
  rw [encRunGo_replicate_default g n 0 (by omega)]
  rw [if_pos (by omega)]
  simp only [encR, List.append_nil, Nat.add_zero, Nat.zero_add]

/-- A block of `k + 65` default pages splits into two `vh` markers: a
saturated one (count digit 63, covering 64 pages) and a fresh one with count
digit `k` for the remaining `k + 1` pages. -/
theorem encR_replicate_default_split (g : Bool) (k : Nat) (hk : k ≤ 63) :
    encR g (List.replicate (k + 65) Page.default) Page.default.fumen_field true
      = 118 :: 104 :: b64c 63 :: (pageTail g true Page.default
          ++ (List.replicate 63 (pageTail g false Page.default)).flatten
          ++ (118 :: 104 :: b64c k :: (pageTail g false Page.default
              ++ (List.replicate k (pageTail g false Page.default)).flatten))) := by
  rw [show k + 65 = (k + 64) + 1 from by omega, List.replicate_succ]
  simp only [encR]
  rw [if_pos delta_default_default, next_page_default]
  rw [encRunGo_replicate_default g (k + 64) 0 (by omega)]
  rw [if_neg (by omega)]
  simp only [Nat.sub_zero]
  rw [show k + 64 - 63 = k + 1 from by omega]
  rw [encR_replicate_default g false k hk]

set_option maxRecDepth 8192 in
/-- C4 (amended): a run of `N` consecutive unchanged pages gets one `vh`
marker with count digit `N − 1` whenever `N ≤ 64`: the digit saturates at 63
(64 pages per marker, not 62/63 as claimed), and only a run of `N > 64` pages
splits into two markers, the second carrying count digit `N − 65`. -/
theorem run_marker_c4 (g : Bool) :
    (∀ n : Nat, n ≤ 63 →
      Fumen.encode { pages := List.replicate (n + 1) Page.default, guideline := g }
        = headerBytes ++ 118 :: 104 :: b64c n :: (pageTail g true Page.default
            ++ (List.replicate n (pageTail g false Page.default)).flatten)) ∧
    (∀ k : Nat, k ≤ 63 →
      Fumen.encode { pages := List.replicate (k + 65) Page.default, guideline := g }
        = headerBytes ++ 118 :: 104 :: b64c 63 :: (pageTail g true Page.default
            ++ (List.replicate 63 (pageTail g false Page.default)).flatten
            ++ (118 :: 104 :: b64c k :: (pageTail g false Page.default
                ++ (List.replicate k (pageTail g false Page.default)).flatten)))) := by
  constructor
  · intro n hn
    rw [encode_eq_encR]
    simp only []
    rw [show List.replicate 240 CellColor.Empty = Page.default.fumen_field from rfl]
    rw [encR_replicate_default g true n hn]
  · intro k hk
    rw [encode_eq_encR]
    simp only []
    rw [show List.replicate 240 CellColor.Empty = Page.default.fumen_field from rfl]
    rw [encR_replicate_default_split g k hk]

set_option maxRecDepth 8192 in
/-- C4 witness: 64 unchanged pages make a single marker with count digit 63;
65 unchanged pages make two markers with count digits 63 and 0. -/
theorem run_marker_c4_witness :
    (Fumen.encode { pages := List.replicate (63 + 1) Page.default, guideline := true }
      = headerBytes ++ 118 :: 104 :: b64c 63 :: (pageTail true true Page.default
          ++ (List.replicate 63 (pageTail true false Page.default)).flatten)) ∧
    (Fumen.encode { pages := List.replicate (0 + 65) Page.default, guideline := true }
      = headerBytes ++ 118 :: 104 :: b64c 63 :: (pageTail true true Page.default
          ++ (List.replicate 63 (pageTail true false Page.default)).flatten
          ++ (118 :: 104 :: b64c 0 :: (pageTail true false Page.default
              ++ (List.replicate 0 (pageTail true false Page.default)).flatten)))) :=
  ⟨(run_marker_c4 true).1 63 (by decide), (run_marker_c4 true).2 0 (by decide)⟩

set_option maxRecDepth 8192 in
/-- C4 counterexample: 64 unchanged pages — more than the claimed 63-page
marker capacity — still produce exactly one `vh` marker (one `118` byte in the
body), with count digit 63 (base-64 character `/`, value 47), contradicting
saturation at 62. -/
theorem run_marker_c4_counterexample :
    ((Fumen.encode { pages := List.replicate 64 Page.default, guideline := true }).drop 5).count 118
        = 1 ∧
    b64c 63 = 47 := by
  refine ⟨?_, by decide⟩
  rw [encode_eq_encR]
  simp only []
  rw [show List.replicate 240 CellColor.Empty = Page.default.fumen_field from rfl]
  rw [show (64 : Nat) = 63 + 1 from rfl]
  rw [encR_replicate_default true true 63 (by omega)]
  decide
